import Mathlib

set_option maxRecDepth 8000

/- Shallow embedding of the dreamberd lexer (src/lexer/mod.rs together with
the token model of src/token.rs).  Source text is a `List Char`; the Rust
code measures lengths in UTF-8 bytes while indexing characters, so byte
slicing is modelled by `dropBytes`/`takeBytes`, which return `none` exactly
where the corresponding Rust slice `&s[a..b]` would abort on an out-of-range
or non-boundary byte index.  Every operation that can abort in Rust returns
`Option`, with `none` modelling the abort.  Loops are modelled with explicit
fuel; every call site passes fuel strictly larger than the number of
iterations the loop can perform (each iteration consumes at least one
remaining character), so fuel exhaustion is unreachable. -/

namespace Berd

/-- Source location, 1-indexed, as in token.rs `Location`. -/
structure Location where
  line : Nat
  col : Nat
deriving DecidableEq

/-- Token kinds from token.rs `TokenType`.  The `Equals` variant is
Modelled from the spec: lexer/mod.rs emits `TokenType::Equals` for a single
equals sign, but token.rs does not declare that variant; the spec instructs
implementers reproducing the dispatch table to add this kind. -/
inductive TokenType where
  | FunctionDeclaration
  | Identifier
  | Lparen
  | Rparen
  | Arrow
  | Lbrace
  | Rbrace
  | StringLiteral
  | Eol
  | EolDebug
  | IntLiteral
  | Primitive
  | Comma
  | BoolLiteral
  | Return
  | Not
  | Equals
deriving DecidableEq

/-- A token, as in token.rs `Token`. -/
structure Token where
  ty : TokenType
  value : List Char
  location : Location
deriving DecidableEq

/-- Lexical errors, as in lexer/mod.rs `LexError`. -/
inductive LexError where
  | UnterminatedString (loc : Location)
  | UnterminatedLine (loc : Location)
  | DeadCode (loc : Location)
deriving DecidableEq

/-- Number of bytes of the UTF-8 encoding of a character. -/
def charBytes (c : Char) : Nat :=
  if c.toNat < 128 then 1
  else if c.toNat < 2048 then 2
  else if c.toNat < 65536 then 3
  else 4

/-- UTF-8 byte length of a character list, Rust `str::len`. -/
def byteLen (s : List Char) : Nat := (s.map charBytes).sum

/-- Drop the first `n` bytes of a string: models the Rust slice `&s[n..]`,
which aborts (here: `none`) when `n` is out of range or not on a character
boundary. -/
def dropBytes : List Char → Nat → Option (List Char)
  | s, 0 => some s
  | [], _ + 1 => none
  | c :: s, n + 1 =>
    if charBytes c ≤ n + 1 then dropBytes s (n + 1 - charBytes c) else none

/-- Take the first `n` bytes of a string: models the Rust slice `&s[..n]`,
which aborts (here: `none`) when `n` is out of range or not on a character
boundary. -/
def takeBytes : List Char → Nat → Option (List Char)
  | _, 0 => some []
  | [], _ + 1 => none
  | c :: s, n + 1 =>
    if charBytes c ≤ n + 1 then (takeBytes s (n + 1 - charBytes c)).map (c :: ·) else none

/-- Line/column of the position right after `pre`, scanning from the start:
the loop body of `Input::current_location`. -/
def locOf (pre : List Char) : Location :=
  pre.foldl
    (fun l c => if c = '\n' then { line := l.line + 1, col := 1 } else { l with col := l.col + 1 })
    { line := 1, col := 1 }

/-- lexer/mod.rs `Input`: the source text plus a cursor.  The Rust cursor is
a `u32` used both as a byte count (against `input.len()`) and as a character
index (in `chars().nth`); it is modelled as `Nat`. -/
structure Input where
  input : List Char
  cursor : Nat
deriving DecidableEq

/-- `Input::of`. -/
def Input.of (s : List Char) : Input := { input := s, cursor := 0 }

/-- `Input::move_cursor`: clamped advance. -/
def Input.move_cursor (inp : Input) (chars : Nat) : Input :=
  if inp.cursor + chars > byteLen inp.input then inp
  else { inp with cursor := inp.cursor + chars }

/-- `Input::remaining_length`. -/
def Input.remaining_length (inp : Input) : Nat := byteLen inp.input - inp.cursor

/-- `Input::peek`: `input.chars().nth(cursor)`, a character-indexed lookup. -/
def Input.peek (inp : Input) : Option Char := inp.input[inp.cursor]?

/-- `Input::has_remaining_input`. -/
def Input.has_remaining_input (inp : Input) : Bool :=
  decide (inp.cursor < byteLen inp.input)

/-- `Input::remaining_input`: the byte slice `&input[cursor..]`. -/
def Input.remaining_input (inp : Input) : Option (List Char) :=
  dropBytes inp.input inp.cursor

/-- `Input::peek_string_chars`: returns the empty string when more bytes are
requested than remain, else the byte slice `&remaining[0..chars]`. -/
def Input.peek_string_chars (inp : Input) (chars : Nat) : Option (List Char) := do
  let remaining ← inp.remaining_input
  if chars > byteLen remaining then pure [] else takeBytes remaining chars

/-- `Input::read`: peek the text, then advance the cursor. -/
def Input.read (inp : Input) (chars : Nat) : Option (List Char × Input) := do
  let s ← inp.peek_string_chars chars
  pure (s, inp.move_cursor chars)

/-- `Input::current_location`: line/column of the byte slice `&input[..cursor]`. -/
def Input.current_location (inp : Input) : Option Location :=
  (takeBytes inp.input inp.cursor).map locOf

/-- Rust `char::is_whitespace`, restricted to the ASCII range (all claim
inputs are ASCII; non-ASCII input aborts the lexer before classification
matters, see the totality claim). -/
def is_whitespace (c : Char) : Bool :=
  decide (c.toNat = 32 ∨ (9 ≤ c.toNat ∧ c.toNat ≤ 13))

/-- Rust `char::is_numeric` on the ASCII range. -/
def is_numeric (c : Char) : Bool := decide (48 ≤ c.toNat ∧ c.toNat ≤ 57)

/-- Rust `char::is_alphabetic` on the ASCII range. -/
def is_alphabetic (c : Char) : Bool :=
  decide ((97 ≤ c.toNat ∧ c.toNat ≤ 122) ∨ (65 ≤ c.toNat ∧ c.toNat ≤ 90))

/-- Rust `char::is_alphanumeric` on the ASCII range. -/
def is_alphanumeric (c : Char) : Bool := is_alphabetic c || is_numeric c

/-- `self.peek().is_some_and(|c| c.is_whitespace())`. -/
def Input.peek_is_whitespace (inp : Input) : Bool :=
  match inp.peek with
  | some c => is_whitespace c
  | none => false

/-- `u32::MAX`, the `max_spaces` bound passed by the scan loop. -/
def U32_MAX : Nat := 4294967295

/-- The while loop of `Input::skip_whitespace`: counter `i` runs up to
`max_spaces`; the fuel (always called with `remaining_length + 1`, an upper
bound on the possible iterations) only drives the recursion. -/
def skipWsLoop (max_spaces : Nat) : Nat → Nat → Input → Option Input
  | 0, _, _ => none
  | fuel + 1, i, inp =>
    if i < max_spaces ∧ inp.has_remaining_input = true ∧ inp.peek_is_whitespace = true then do
      let (_, inp') ← inp.read 1
      skipWsLoop max_spaces fuel (i + 1) inp'
    else some inp

/-- `Input::skip_whitespace`. -/
def Input.skip_whitespace (inp : Input) (max_spaces : Nat) (preserve_single : Bool) :
    Option Input :=
  if preserve_single = true ∧ inp.remaining_length = 1 ∧ inp.peek = some ' ' then some inp
  else skipWsLoop max_spaces (inp.remaining_length + 1) 0 inp

/-- The double quote character. -/
def quote : Char := Char.ofNat 34

/-- lexer/mod.rs `Lexer`. -/
structure Lexer where
  input : Input
  tokens : List Token
deriving DecidableEq

/-- `Lexer::add_token`: push a token stamped with the current location. -/
def Lexer.add_token (lx : Lexer) (ty : TokenType) (value : List Char) : Option Lexer := do
  let loc ← lx.input.current_location
  pure { lx with tokens := lx.tokens ++ [{ ty := ty, value := value, location := loc }] }

/-- The keyword whitelist of `lex_identifier`: every strict prefix of
`"function"` from length 1 to 8. -/
def functionPrefixes : List (List Char) :=
  [['f'], ['f', 'u'], ['f', 'u', 'n'], ['f', 'u', 'n', 'c'], ['f', 'u', 'n', 'c', 't'],
   ['f', 'u', 'n', 'c', 't', 'i'], ['f', 'u', 'n', 'c', 't', 'i', 'o'],
   ['f', 'u', 'n', 'c', 't', 'i', 'o', 'n']]

/-- The primitive type names of `lex_identifier`. -/
def primitiveNames : List (List Char) :=
  [['I', 'n', 't'], ['S', 't', 'r', 'i', 'n', 'g'], ['C', 'h', 'a', 'r'],
   ['D', 'i', 'g', 'i', 't'], ['B', 'o', 'o', 'l']]

/-- The boolean literals of `lex_identifier`. -/
def boolNames : List (List Char) :=
  [['t', 'r', 'u', 'e'], ['f', 'a', 'l', 's', 'e'], ['m', 'a', 'y', 'b', 'e']]

/-- The `"return"` keyword. -/
def returnName : List Char := ['r', 'e', 't', 'u', 'r', 'n']

/-- The match of `lex_identifier` over the scanned word. -/
def classifyIdent (ident : List Char) : TokenType :=
  if ident ∈ functionPrefixes then .FunctionDeclaration
  else if ident ∈ primitiveNames then .Primitive
  else if ident ∈ boolNames then .BoolLiteral
  else if ident = returnName then .Return
  else .Identifier

/-- The while loop of `lex_identifier`: read while the next character is
alphanumeric (the Rust `peek().unwrap()` aborts when `peek` is `None`). -/
def identLoop : Nat → Input → List Char → Option (List Char × Input)
  | 0, _, _ => none
  | fuel + 1, inp, acc =>
    if inp.has_remaining_input = true then
      match inp.peek with
      | none => none
      | some c =>
        if is_alphanumeric c = true then do
          let (s, inp') ← inp.read 1
          identLoop fuel inp' (acc ++ s)
        else some (acc, inp)
    else some (acc, inp)

/-- `Lexer::lex_identifier`: read the first character, extend while
alphanumeric, classify, emit, then retract the cursor by one. -/
def lexIdentifier (lx : Lexer) : Option Lexer := do
  let (first, inp) ← lx.input.read 1
  let (rest, inp) ← identLoop (inp.remaining_length + 1) inp []
  let ident := first ++ rest
  let lx ← Lexer.add_token { lx with input := inp } (classifyIdent ident) ident
  pure { lx with input := { lx.input with cursor := lx.input.cursor - 1 } }

/-- Outcome of one iteration of the scan loop of `Lexer::lex`:
continue (`next`), break (`stop`), or return an error (`fail`). -/
inductive StepRes where
  | next (lx : Lexer)
  | stop (lx : Lexer)
  | fail (e : LexError)
deriving DecidableEq

/-- The unconditional `self.input.read(1)` at the bottom of the scan loop. -/
def finishIter (lx : Lexer) : Option StepRes := do
  let (_, inp) ← lx.input.read 1
  pure (.next { lx with input := inp })

/-- The while loop of the `'"'` branch: accumulate while the next character
is not a quote (the Rust `peek().unwrap()` aborts when `peek` is `None`). -/
def stringLoop : Nat → Input → List Char → Option (List Char × Input)
  | 0, _, _ => none
  | fuel + 1, inp, acc =>
    if inp.has_remaining_input = true then
      match inp.peek with
      | none => none
      | some c =>
        if c ≠ quote then do
          let (s, inp') ← inp.read 1
          stringLoop fuel inp' (acc ++ s)
        else some (acc, inp)
    else some (acc, inp)

/-- The `'"'` branch of the scan loop. -/
def stringBranch (lx : Lexer) : Option StepRes := do
  let (_, inp) ← lx.input.read 1
  let (str, inp) ← stringLoop (inp.remaining_length + 1) inp []
  if inp.has_remaining_input = false then do
    let loc ← inp.current_location
    pure (.fail (.UnterminatedString loc))
  else do
    let lx ← Lexer.add_token { lx with input := inp } .StringLiteral str
    finishIter lx

/-- The while loop of the `'!'` branch: each read character must be `'!'` or
a newline, else the cursor is retracted and the branch fails with the
DeadCode location. -/
def bangLoop : Nat → Input → List Char → Option (Except Location (List Char × Input))
  | 0, _, _ => none
  | fuel + 1, inp, acc =>
    if inp.has_remaining_input = true then do
      let (cur, inp') ← inp.read 1
      if cur ≠ ['!'] ∧ cur ≠ ['\n'] then do
        let inp2 : Input := { inp' with cursor := inp'.cursor - 1 }
        let loc ← inp2.current_location
        pure (.error loc)
      else bangLoop fuel inp' (acc ++ cur)
    else pure (.ok (acc, inp))

/-- The `'!'` branch of the scan loop. -/
def bangBranch (lx : Lexer) : Option StepRes := do
  let (eol, inp) ← lx.input.read 1
  let inp ← inp.skip_whitespace U32_MAX false
  match ← bangLoop (inp.remaining_length + 1) inp [] with
  | .error loc => pure (.fail (.DeadCode loc))
  | .ok (rest, inp) => do
    let lx ← Lexer.add_token { lx with input := inp } .Eol (eol ++ rest)
    pure (.stop lx)

/-- The `'?'` branch of the scan loop. -/
def questionBranch (lx : Lexer) : Option StepRes := do
  let (eolDebug, inp) ← lx.input.read 1
  let inp ← inp.skip_whitespace U32_MAX false
  if inp.has_remaining_input = true then do
    let (cur, inp') ← inp.read 1
    if cur ≠ ['\n'] then do
      let inp2 : Input := { inp' with cursor := inp'.cursor - 1 }
      let loc ← inp2.current_location
      pure (.fail (.DeadCode loc))
    else do
      let lx ← Lexer.add_token { lx with input := inp' } .EolDebug eolDebug
      pure (.stop lx)
  else do
    let lx ← Lexer.add_token { lx with input := inp } .EolDebug eolDebug
    pure (.stop lx)

/-- The `'='` branch of the scan loop: `peek().unwrap_or_default()` (the
default character is `'\0'`) compared against `'>'`. -/
def equalsBranch (lx : Lexer) : Option StepRes :=
  if lx.input.peek.getD (Char.ofNat 0) = '>' then do
    let (_, inp) ← lx.input.read 1
    let lx ← Lexer.add_token { lx with input := inp } .Arrow ['=', '>']
    finishIter lx
  else do
    let lx ← Lexer.add_token lx .Equals ['=']
    finishIter lx

/-- The while loop of the integer-literal sub-scanner: read while numeric. -/
def numberLoop : Nat → Input → List Char → Option (List Char × Input)
  | 0, _, _ => none
  | fuel + 1, inp, acc =>
    if inp.has_remaining_input = true then
      match inp.peek with
      | none => none
      | some c =>
        if is_numeric c = true then do
          let (s, inp') ← inp.read 1
          numberLoop fuel inp' (acc ++ s)
        else some (acc, inp)
    else some (acc, inp)

/-- The `if current.is_numeric()` part of the catch-all branch: scan an
integer literal. -/
def intPart (current : Char) (lx : Lexer) : Option Lexer :=
  if is_numeric current = true then do
    let (number, inp) ← numberLoop (lx.input.remaining_length + 1) lx.input []
    Lexer.add_token { lx with input := inp } .IntLiteral number
  else pure lx

/-- The `if current.is_alphabetic()` part of the catch-all branch: run the
identifier sub-scanner. -/
def identPart (current : Char) (lx : Lexer) : Option Lexer :=
  if is_alphabetic current = true then lexIdentifier lx else pure lx

/-- The catch-all branch of the scan loop: integer literal when the current
character is numeric, identifier when alphabetic, else nothing. -/
def defaultBranch (current : Char) (lx : Lexer) : Option StepRes := do
  let lx ← intPart current lx
  let lx ← identPart current lx
  finishIter lx

/-- The `match current` dispatch of the scan loop of `Lexer::lex`, written
as the equivalent chain of equality tests on the matched character. -/
def dispatch (current : Char) (lx : Lexer) : Option StepRes :=
  if current = ' ' then finishIter lx
  else if current = quote then stringBranch lx
  else if current = ',' then do
    let lx ← Lexer.add_token lx .Comma [',']
    finishIter lx
  else if current = '!' then bangBranch lx
  else if current = '?' then questionBranch lx
  else if current = '(' then do
    let lx ← Lexer.add_token lx .Lparen ['(']
    finishIter lx
  else if current = ')' then do
    let lx ← Lexer.add_token lx .Rparen [')']
    finishIter lx
  else if current = Char.ofNat 123 then do
    let lx ← Lexer.add_token lx .Lbrace [Char.ofNat 123]
    finishIter lx
  else if current = Char.ofNat 125 then do
    let lx ← Lexer.add_token lx .Rbrace [Char.ofNat 125]
    finishIter lx
  else if current = ';' then do
    let lx ← Lexer.add_token lx .Not [';']
    finishIter lx
  else if current = '=' then equalsBranch lx
  else defaultBranch current lx

/-- One iteration of the scan loop of `Lexer::lex`: skip whitespace
(preserving a single trailing space), then dispatch on the peeked
character (`let Some(current) = peek() else break`). -/
def lexIter (lx : Lexer) : Option StepRes := do
  let inp ← lx.input.skip_whitespace U32_MAX true
  let lx : Lexer := { lx with input := inp }
  match lx.input.peek with
  | none => pure (.stop lx)
  | some current => dispatch current lx

/-- The scan loop of `Lexer::lex`, with fuel (each continuing iteration
advances the cursor, so `byteLen input + 1` units always suffice). -/
def lexLoop : Nat → Lexer → Option (Except LexError Lexer)
  | 0, _ => none
  | fuel + 1, lx =>
    if lx.input.has_remaining_input = true then
      match lexIter lx with
      | none => none
      | some (.fail e) => some (.error e)
      | some (.stop lx') => some (.ok lx')
      | some (.next lx') => lexLoop fuel lx'
    else some (.ok lx)

/-- The termination check after the scan loop: a non-empty token sequence
must end in `Eol` or `EolDebug`. -/
def finalCheck (lx : Lexer) : Option (Except LexError (List Token)) :=
  match lx.tokens.getLast? with
  | some last =>
    if ¬(last.ty = .Eol ∨ last.ty = .EolDebug) then do
      let loc ← lx.input.current_location
      pure (.error (.UnterminatedLine loc))
    else pure (.ok lx.tokens)
  | none => pure (.ok lx.tokens)

/-- `Lexer::lex` / the `lex` entry point: run the scan loop from a fresh
lexer, then apply the termination check. -/
def lex (inp : Input) : Option (Except LexError (List Token)) :=
  match lexLoop (byteLen inp.input + 1) { input := inp, tokens := [] } with
  | none => none
  | some (.error e) => some (.error e)
  | some (.ok lx) => finalCheck lx

/- ------------------------------------------------------------------ -/
/- Basic facts about the byte-level primitives on ASCII input.        -/
/- ------------------------------------------------------------------ -/

/-- A string all of whose characters are one UTF-8 byte wide. -/
abbrev allAscii (s : List Char) : Prop := ∀ c ∈ s, charBytes c = 1

theorem byteLen_ascii {s : List Char} (h : allAscii s) : byteLen s = s.length := by
  induction s with
  | nil => rfl
  | cons c t ih =>
    have hc : charBytes c = 1 := h c (List.mem_cons_self c t)
    have ht := ih (fun d hd => h d (List.mem_cons_of_mem c hd))
    simp only [byteLen, List.map_cons, List.sum_cons, List.length_cons] at ht ⊢
    omega

theorem dropBytes_ascii {s : List Char} (h : allAscii s) :
    ∀ k, k ≤ s.length → dropBytes s k = some (s.drop k) := by
  induction s with
  | nil =>
    intro k hk
    have hz : k = 0 := by simpa using hk
    subst hz; rfl
  | cons c t ih =>
    intro k hk
    match k with
    | 0 => rfl
    | k + 1 =>
      have hc : charBytes c = 1 := h c (List.mem_cons_self c t)
      have ht : allAscii t := fun d hd => h d (List.mem_cons_of_mem c hd)
      simp only [dropBytes, hc]
      rw [if_pos (by omega : (1 : Nat) ≤ k + 1)]
      simp only [Nat.add_sub_cancel, List.drop_succ_cons]
      exact ih ht k (by simpa using hk)

theorem takeBytes_ascii {s : List Char} (h : allAscii s) :
    ∀ k, k ≤ s.length → takeBytes s k = some (s.take k) := by
  induction s with
  | nil =>
    intro k hk
    have hz : k = 0 := by simpa using hk
    subst hz; rfl
  | cons c t ih =>
    intro k hk
    match k with
    | 0 => rfl
    | k + 1 =>
      have hc : charBytes c = 1 := h c (List.mem_cons_self c t)
      have ht : allAscii t := fun d hd => h d (List.mem_cons_of_mem c hd)
      simp only [takeBytes, hc]
      rw [if_pos (by omega : (1 : Nat) ≤ k + 1)]
      simp only [Nat.add_sub_cancel, List.take_succ_cons]
      rw [ih ht k (by simpa using hk)]
      rfl

theorem drop_lt_length {s : List Char} {k : Nat} {c : Char} {t : List Char}
    (h : s.drop k = c :: t) : k < s.length := by
  by_contra hk
  rw [List.drop_eq_nil_iff.mpr (by omega)] at h
  exact List.noConfusion h

theorem peek_of_drop {s : List Char} {k : Nat} {c : Char} {t : List Char}
    (h : s.drop k = c :: t) : Input.peek ⟨s, k⟩ = some c := by
  have h0 : (s.drop k)[0]? = some c := by rw [h]; simp
  rw [List.getElem?_drop] at h0
  show s[k]? = some c
  simpa using h0

theorem peek_of_drop_nil {s : List Char} {k : Nat} (h : s.drop k = []) :
    Input.peek ⟨s, k⟩ = none := by
  have hk : s.length ≤ k := List.drop_eq_nil_iff.mp h
  show s[k]? = none
  exact List.getElem?_eq_none hk

theorem drop_succ_of_drop {s : List Char} {k : Nat} {c : Char} {t : List Char}
    (h : s.drop k = c :: t) : s.drop (k + 1) = t := by
  rw [← List.drop_drop, h]; rfl

theorem has_remaining_true {s : List Char} {k : Nat} (ha : allAscii s) (hk : k < s.length) :
    Input.has_remaining_input ⟨s, k⟩ = true := by
  simp only [Input.has_remaining_input, byteLen_ascii ha]
  exact decide_eq_true hk

theorem has_remaining_false {s : List Char} {k : Nat} (ha : allAscii s) (hk : s.length ≤ k) :
    Input.has_remaining_input ⟨s, k⟩ = false := by
  simp only [Input.has_remaining_input, byteLen_ascii ha]
  exact decide_eq_false (by omega)

theorem remaining_length_ascii {s : List Char} (k : Nat) (ha : allAscii s) :
    Input.remaining_length ⟨s, k⟩ = s.length - k := by
  simp [Input.remaining_length, byteLen_ascii ha]

theorem allAscii_drop {s : List Char} (k : Nat) (ha : allAscii s) : allAscii (s.drop k) :=
  fun c hc => ha c (List.mem_of_mem_drop hc)

theorem read_one {s : List Char} {k : Nat} {c : Char} {t : List Char}
    (ha : allAscii s) (h : s.drop k = c :: t) :
    Input.read ⟨s, k⟩ 1 = some ([c], ⟨s, k + 1⟩) := by
  have hk : k < s.length := drop_lt_length h
  have hrem : Input.remaining_input ⟨s, k⟩ = some (c :: t) := by
    simpa [Input.remaining_input, h] using dropBytes_ascii ha k (by omega)
  have hasc : allAscii (c :: t) := h ▸ allAscii_drop k ha
  have hc1 : charBytes c = 1 := hasc c (List.mem_cons_self c t)
  have hbl : byteLen (c :: t) = t.length + 1 := by
    rw [byteLen_ascii hasc]; simp
  have hpsc : Input.peek_string_chars ⟨s, k⟩ 1 = some [c] := by
    unfold Input.peek_string_chars
    rw [hrem]
    show (if 1 > byteLen (c :: t) then pure [] else takeBytes (c :: t) 1 : Option (List Char)) =
      some [c]
    rw [hbl, if_neg (by omega)]
    simp [takeBytes, hc1]
  unfold Input.read
  rw [hpsc]
  show some ([c], Input.move_cursor ⟨s, k⟩ 1) = some ([c], ⟨s, k + 1⟩)
  unfold Input.move_cursor
  rw [if_neg (by show ¬(k + 1 > byteLen s); rw [byteLen_ascii ha]; omega)]

theorem current_location_ascii {s : List Char} {k : Nat} (ha : allAscii s) (hk : k ≤ s.length) :
    Input.current_location ⟨s, k⟩ = some (locOf (s.take k)) := by
  rw [Input.current_location, takeBytes_ascii ha k hk]; rfl

/- ------------------------------------------------------------------ -/
/- Characterization of skip_whitespace on ASCII input.                -/
/- ------------------------------------------------------------------ -/

theorem space_is_whitespace : is_whitespace ' ' = true := by decide

theorem skipWsLoop_run {s : List Char} (ha : allAscii s) :
    ∀ (ws : List Char) (rest : List Char) (k i fuel max : Nat), s.drop k = ws ++ rest →
      (∀ c ∈ ws, is_whitespace c = true) →
      (∀ c t, rest = c :: t → is_whitespace c = false) →
      i + ws.length ≤ max → ws.length < fuel →
      skipWsLoop max fuel i ⟨s, k⟩ = some ⟨s, k + ws.length⟩ := by
  intro ws
  induction ws with
  | nil =>
    intro rest k i fuel max hd _ hrest _ hfuel
    match fuel with
    | fuel + 1 =>
      rw [skipWsLoop]
      have hne : Input.peek_is_whitespace ⟨s, k⟩ = false := by
        rw [Input.peek_is_whitespace]
        match hr : rest with
        | [] => rw [peek_of_drop_nil (by simpa using hd)]
        | c :: t =>
          rw [peek_of_drop (by simpa [hr] using hd)]
          exact hrest c t rfl
      rw [if_neg (by simp [hne])]
      simp
  | cons w ws ih =>
    intro rest k i fuel max hd hws hrest hmax hfuel
    match fuel with
    | fuel + 1 =>
      have hd' : s.drop k = w :: (ws ++ rest) := by simpa using hd
      have hk : k < s.length := drop_lt_length hd'
      have hw : is_whitespace w = true := hws w (List.mem_cons_self w ws)
      have hmax' : i + (ws.length + 1) ≤ max := by simpa using hmax
      rw [skipWsLoop]
      rw [if_pos ⟨by omega, has_remaining_true ha hk,
        by rw [Input.peek_is_whitespace, peek_of_drop hd']; exact hw⟩]
      rw [read_one ha hd']
      show skipWsLoop max fuel (i + 1) ⟨s, k + 1⟩ = some ⟨s, k + (w :: ws).length⟩
      rw [ih rest (k + 1) (i + 1) fuel max (drop_succ_of_drop hd')
        (fun c hc => hws c (List.mem_cons_of_mem w hc)) hrest (by omega)
        (by simp only [List.length_cons] at hfuel; omega)]
      simp only [List.length_cons]
      congr 2
      omega

theorem drop_parts_length {s : List Char} {k : Nat} {ws rest : List Char}
    (hd : s.drop k = ws ++ rest) (_hk : k ≤ s.length) :
    ws.length + rest.length = s.length - k := by
  have h2 := congrArg List.length hd
  simp only [List.length_drop, List.length_append] at h2
  omega

theorem skip_ws_false {s : List Char} {ws rest : List Char} {k max : Nat}
    (ha : allAscii s) (hd : s.drop k = ws ++ rest)
    (hws : ∀ c ∈ ws, is_whitespace c = true)
    (hrest : ∀ c t, rest = c :: t → is_whitespace c = false)
    (hmax : ws.length ≤ max) (hk : k ≤ s.length) :
    Input.skip_whitespace ⟨s, k⟩ max false = some ⟨s, k + ws.length⟩ := by
  rw [Input.skip_whitespace, if_neg (by simp)]
  have hlen := drop_parts_length hd hk
  exact skipWsLoop_run ha ws rest k 0 _ max hd hws hrest (by omega)
    (by rw [remaining_length_ascii k ha]; omega)

theorem skip_ws_notws {s : List Char} {k max : Nat} {c : Char} {t : List Char} {p : Bool}
    (ha : allAscii s) (hd : s.drop k = c :: t) (hc : is_whitespace c = false) :
    Input.skip_whitespace ⟨s, k⟩ max p = some ⟨s, k⟩ := by
  have hcs : ¬(c = ' ') := by
    intro h; rw [h, space_is_whitespace] at hc; exact Bool.noConfusion hc
  rw [Input.skip_whitespace]
  rw [if_neg (by
    rintro ⟨-, -, hpeek⟩
    rw [peek_of_drop hd] at hpeek
    exact hcs (Option.some_injective _ hpeek))]
  have := skipWsLoop_run ha [] (c :: t) k 0 (Input.remaining_length ⟨s, k⟩ + 1) max
    (by simpa using hd) (by simp)
    (fun d u hdu => by rw [List.cons.injEq] at hdu; rw [← hdu.1]; exact hc)
    (by simp) (by simp)
  simpa using this

/- ------------------------------------------------------------------ -/
/- Characterization of the inner scan loops on ASCII input.           -/
/- ------------------------------------------------------------------ -/

theorem bangLoop_ok {s : List Char} (ha : allAscii s) :
    ∀ (tail : List Char) (k : Nat) (acc : List Char) (fuel : Nat), s.drop k = tail →
      (∀ c ∈ tail, c = '!' ∨ c = '\n') → tail.length < fuel → k ≤ s.length →
      bangLoop fuel ⟨s, k⟩ acc = some (.ok (acc ++ tail, ⟨s, s.length⟩)) := by
  intro tail
  induction tail with
  | nil =>
    intro k acc fuel hd _ hfuel hk
    match fuel with
    | fuel + 1 =>
      have hke : s.length ≤ k := List.drop_eq_nil_iff.mp hd
      have hkk : k = s.length := by omega
      subst hkk
      rw [bangLoop, if_neg (by rw [has_remaining_false ha (le_refl _)]; exact Bool.false_ne_true)]
      simp
  | cons c t ih =>
    intro k acc fuel hd hok hfuel hk
    match fuel with
    | fuel + 1 =>
      have hklt : k < s.length := drop_lt_length hd
      have hc := hok c (List.mem_cons_self c t)
      rw [bangLoop, if_pos (has_remaining_true ha hklt), read_one ha hd]
      simp only [Option.bind_eq_bind, Option.some_bind]
      rw [if_neg (by rcases hc with hc | hc <;> subst hc <;> simp)]
      rw [ih (k + 1) (acc ++ [c]) fuel (drop_succ_of_drop hd)
        (fun d hdm => hok d (List.mem_cons_of_mem c hdm))
        (by simp only [List.length_cons] at hfuel; omega) (by omega)]
      simp

theorem bangLoop_err {s : List Char} (ha : allAscii s) :
    ∀ (good : List Char) (k : Nat) (acc : List Char) (fuel : Nat) (c : Char) (bad : List Char),
      s.drop k = good ++ c :: bad → (∀ d ∈ good, d = '!' ∨ d = '\n') →
      ¬(c = '!' ∨ c = '\n') → good.length < fuel →
      bangLoop fuel ⟨s, k⟩ acc =
        some (.error (locOf (s.take (k + good.length)))) := by
  intro good
  induction good with
  | nil =>
    intro k acc fuel c bad hd _ hbadc hfuel
    match fuel with
    | fuel + 1 =>
      have hd' : s.drop k = c :: bad := by simpa using hd
      have hklt : k < s.length := drop_lt_length hd'
      rw [bangLoop, if_pos (has_remaining_true ha hklt), read_one ha hd']
      simp only [Option.bind_eq_bind, Option.some_bind]
      rw [if_pos ⟨by simp only [ne_eq, List.cons.injEq, and_true]
                     exact fun h => hbadc (Or.inl h),
                  by simp only [ne_eq, List.cons.injEq, and_true]
                     exact fun h => hbadc (Or.inr h)⟩]
      simp only [Nat.add_sub_cancel]
      rw [current_location_ascii ha (by omega)]
      simp

  | cons g good ih =>
    intro k acc fuel c bad hd hgood hbadc hfuel
    match fuel with
    | fuel + 1 =>
      have hd' : s.drop k = g :: (good ++ c :: bad) := by simpa using hd
      have hklt : k < s.length := drop_lt_length hd'
      have hg := hgood g (List.mem_cons_self g good)
      rw [bangLoop, if_pos (has_remaining_true ha hklt), read_one ha hd']
      simp only [Option.bind_eq_bind, Option.some_bind]
      rw [if_neg (by rcases hg with hg | hg <;> subst hg <;> simp)]
      rw [ih (k + 1) (acc ++ [g]) fuel c bad (drop_succ_of_drop hd')
        (fun d hdm => hgood d (List.mem_cons_of_mem g hdm)) hbadc
        (by simp only [List.length_cons] at hfuel; omega)]
      simp only [List.length_cons]
      rw [show k + 1 + good.length = k + (good.length + 1) from by omega]

theorem numberLoop_run {s : List Char} (ha : allAscii s) :
    ∀ (ds rest : List Char) (k : Nat) (acc : List Char) (fuel : Nat),
      s.drop k = ds ++ rest → (∀ d ∈ ds, is_numeric d = true) →
      (∀ c t, rest = c :: t → is_numeric c = false) → ds.length < fuel → k ≤ s.length →
      numberLoop fuel ⟨s, k⟩ acc = some (acc ++ ds, ⟨s, k + ds.length⟩) := by
  intro ds
  induction ds with
  | nil =>
    intro rest k acc fuel hd _ hrest hfuel hk
    match fuel with
    | fuel + 1 =>
      rw [numberLoop]
      match hr : rest with
      | [] =>
        have hke : s.length ≤ k := List.drop_eq_nil_iff.mp (by simpa [hr] using hd)
        rw [if_neg (by rw [has_remaining_false ha hke]; exact Bool.false_ne_true)]
        simp
      | c :: t =>
        have hd' : s.drop k = c :: t := by simpa [hr] using hd
        have hklt : k < s.length := drop_lt_length hd'
        rw [if_pos (has_remaining_true ha hklt), peek_of_drop hd']
        simp only []
        rw [if_neg (by rw [hrest c t rfl]; exact Bool.false_ne_true)]
        simp
  | cons d ds ih =>
    intro rest k acc fuel hd hds hrest hfuel hk
    match fuel with
    | fuel + 1 =>
      have hd' : s.drop k = d :: (ds ++ rest) := by simpa using hd
      have hklt : k < s.length := drop_lt_length hd'
      rw [numberLoop, if_pos (has_remaining_true ha hklt), peek_of_drop hd']
      simp only []
      rw [if_pos (hds d (List.mem_cons_self d ds)), read_one ha hd']
      simp only [Option.bind_eq_bind, Option.some_bind]
      rw [ih rest (k + 1) (acc ++ [d]) fuel (drop_succ_of_drop hd')
        (fun e he => hds e (List.mem_cons_of_mem d he)) hrest
        (by simp only [List.length_cons] at hfuel; omega) (by omega)]
      simp only [List.length_cons, List.append_assoc, List.singleton_append]
      congr 3
      omega

theorem identLoop_run {s : List Char} (ha : allAscii s) :
    ∀ (ds rest : List Char) (k : Nat) (acc : List Char) (fuel : Nat),
      s.drop k = ds ++ rest → (∀ d ∈ ds, is_alphanumeric d = true) →
      (∀ c t, rest = c :: t → is_alphanumeric c = false) → ds.length < fuel → k ≤ s.length →
      identLoop fuel ⟨s, k⟩ acc = some (acc ++ ds, ⟨s, k + ds.length⟩) := by
  intro ds
  induction ds with
  | nil =>
    intro rest k acc fuel hd _ hrest hfuel hk
    match fuel with
    | fuel + 1 =>
      rw [identLoop]
      match hr : rest with
      | [] =>
        have hke : s.length ≤ k := List.drop_eq_nil_iff.mp (by simpa [hr] using hd)
        rw [if_neg (by rw [has_remaining_false ha hke]; exact Bool.false_ne_true)]
        simp
      | c :: t =>
        have hd' : s.drop k = c :: t := by simpa [hr] using hd
        have hklt : k < s.length := drop_lt_length hd'
        rw [if_pos (has_remaining_true ha hklt), peek_of_drop hd']
        simp only []
        rw [if_neg (by rw [hrest c t rfl]; exact Bool.false_ne_true)]
        simp
  | cons d ds ih =>
    intro rest k acc fuel hd hds hrest hfuel hk
    match fuel with
    | fuel + 1 =>
      have hd' : s.drop k = d :: (ds ++ rest) := by simpa using hd
      have hklt : k < s.length := drop_lt_length hd'
      rw [identLoop, if_pos (has_remaining_true ha hklt), peek_of_drop hd']
      simp only []
      rw [if_pos (hds d (List.mem_cons_self d ds)), read_one ha hd']
      simp only [Option.bind_eq_bind, Option.some_bind]
      rw [ih rest (k + 1) (acc ++ [d]) fuel (drop_succ_of_drop hd')
        (fun e he => hds e (List.mem_cons_of_mem d he)) hrest
        (by simp only [List.length_cons] at hfuel; omega) (by omega)]
      simp only [List.length_cons, List.append_assoc, List.singleton_append]
      congr 3
      omega

theorem stringLoop_run {s : List Char} (ha : allAscii s) :
    ∀ (cs : List Char) (k : Nat) (acc : List Char) (fuel : Nat), s.drop k = cs →
      (∀ c ∈ cs, ¬(c = quote)) → cs.length < fuel → k ≤ s.length →
      stringLoop fuel ⟨s, k⟩ acc = some (acc ++ cs, ⟨s, s.length⟩) := by
  intro cs
  induction cs with
  | nil =>
    intro k acc fuel hd _ hfuel hk
    match fuel with
    | fuel + 1 =>
      have hke : s.length ≤ k := List.drop_eq_nil_iff.mp hd
      have hkk : k = s.length := by omega
      subst hkk
      rw [stringLoop,
        if_neg (by rw [has_remaining_false ha (le_refl _)]; exact Bool.false_ne_true)]
      simp
  | cons c t ih =>
    intro k acc fuel hd hnq hfuel hk
    match fuel with
    | fuel + 1 =>
      have hklt : k < s.length := drop_lt_length hd
      rw [stringLoop, if_pos (has_remaining_true ha hklt), peek_of_drop hd]
      simp only []
      rw [if_pos (by simpa using hnq c (List.mem_cons_self c t)), read_one ha hd]
      simp only [Option.bind_eq_bind, Option.some_bind]
      rw [ih (k + 1) (acc ++ [c]) fuel (drop_succ_of_drop hd)
        (fun d hdm => hnq d (List.mem_cons_of_mem c hdm))
        (by simp only [List.length_cons] at hfuel; omega) (by omega)]
      simp

/- ------------------------------------------------------------------ -/
/- Character-class facts and dispatch lemmas.                         -/
/- ------------------------------------------------------------------ -/

theorem not_ws_ne_newline {c : Char} (h : is_whitespace c = false) : ¬(c = '\n') := by
  intro hc; subst hc; exact absurd h (by decide)

theorem numeric_char_facts {c : Char} (h : is_numeric c = true) :
    is_whitespace c = false ∧ is_alphabetic c = false ∧ c ≠ ' ' ∧ c ≠ quote ∧ c ≠ ',' ∧
    c ≠ '!' ∧ c ≠ '?' ∧ c ≠ '(' ∧ c ≠ ')' ∧ c ≠ Char.ofNat 123 ∧ c ≠ Char.ofNat 125 ∧
    c ≠ ';' ∧ c ≠ '=' := by
  have hn : 48 ≤ c.toNat ∧ c.toNat ≤ 57 := of_decide_eq_true h
  refine ⟨decide_eq_false (by omega), decide_eq_false (by omega), ?_, ?_, ?_, ?_, ?_, ?_, ?_,
    ?_, ?_, ?_, ?_⟩ <;>
    · intro hc; subst hc; exact absurd h (by decide)

theorem alpha_char_facts {c : Char} (h : is_alphabetic c = true) :
    is_whitespace c = false ∧ is_numeric c = false ∧ c ≠ ' ' ∧ c ≠ quote ∧ c ≠ ',' ∧
    c ≠ '!' ∧ c ≠ '?' ∧ c ≠ '(' ∧ c ≠ ')' ∧ c ≠ Char.ofNat 123 ∧ c ≠ Char.ofNat 125 ∧
    c ≠ ';' ∧ c ≠ '=' := by
  have hn : (97 ≤ c.toNat ∧ c.toNat ≤ 122) ∨ (65 ≤ c.toNat ∧ c.toNat ≤ 90) :=
    of_decide_eq_true h
  refine ⟨decide_eq_false (by omega), decide_eq_false (by omega), ?_, ?_, ?_, ?_, ?_, ?_, ?_,
    ?_, ?_, ?_, ?_⟩ <;>
    · intro hc; subst hc; exact absurd h (by decide)

theorem ascii_of_numeric {c : Char} (h : is_numeric c = true) : charBytes c = 1 := by
  have hn : 48 ≤ c.toNat ∧ c.toNat ≤ 57 := of_decide_eq_true h
  unfold charBytes
  rw [if_pos (by omega)]

theorem dispatch_quote (lx : Lexer) : dispatch quote lx = stringBranch lx := rfl

theorem dispatch_bang (lx : Lexer) : dispatch '!' lx = bangBranch lx := rfl

theorem dispatch_question (lx : Lexer) : dispatch '?' lx = questionBranch lx := rfl

theorem dispatch_other {c : Char} (lx : Lexer)
    (h1 : c ≠ ' ') (h2 : c ≠ quote) (h3 : c ≠ ',') (h4 : c ≠ '!') (h5 : c ≠ '?')
    (h6 : c ≠ '(') (h7 : c ≠ ')') (h8 : c ≠ Char.ofNat 123) (h9 : c ≠ Char.ofNat 125)
    (h10 : c ≠ ';') (h11 : c ≠ '=') :
    dispatch c lx = defaultBranch c lx := by
  unfold dispatch
  rw [if_neg h1, if_neg h2, if_neg h3, if_neg h4, if_neg h5, if_neg h6, if_neg h7,
    if_neg h8, if_neg h9, if_neg h10, if_neg h11]

theorem lexIter_head {s : List Char} {k : Nat} {toks : List Token} {c : Char} {t : List Char}
    (ha : allAscii s) (hd : s.drop k = c :: t) (hws : is_whitespace c = false) :
    lexIter ⟨⟨s, k⟩, toks⟩ = dispatch c ⟨⟨s, k⟩, toks⟩ := by
  unfold lexIter
  rw [skip_ws_notws ha hd hws]
  simp only [Option.bind_eq_bind, Option.some_bind]
  rw [peek_of_drop hd]

theorem drop_add_of_drop {s : List Char} :
    ∀ (ws rest : List Char) (k : Nat), s.drop k = ws ++ rest →
      s.drop (k + ws.length) = rest := by
  intro ws
  induction ws with
  | nil => intro rest k hd; simpa using hd
  | cons w ws ih =>
    intro rest k hd
    have hd' : s.drop k = w :: (ws ++ rest) := by simpa using hd
    have := ih rest (k + 1) (drop_succ_of_drop hd')
    simp only [List.length_cons]
    rw [show k + (ws.length + 1) = k + 1 + ws.length from by omega]
    exact this

theorem finishIter_lt {s : List Char} {k : Nat} {toks : List Token}
    (ha : allAscii s) (hk : k < s.length) :
    finishIter ⟨⟨s, k⟩, toks⟩ = some (.next ⟨⟨s, k + 1⟩, toks⟩) := by
  match hdk : s.drop k with
  | [] => exact absurd (List.drop_eq_nil_iff.mp hdk) (by omega)
  | c :: t =>
    unfold finishIter
    rw [read_one ha hdk]
    rfl

theorem lexLoop_succ (fuel : Nat) (lx : Lexer) :
    lexLoop (fuel + 1) lx =
      if lx.input.has_remaining_input = true then
        match lexIter lx with
        | none => none
        | some (.fail e) => some (.error e)
        | some (.stop lx') => some (.ok lx')
        | some (.next lx') => lexLoop fuel lx'
      else some (.ok lx) := rfl

/- ------------------------------------------------------------------ -/
/- Branch-level characterizations on ASCII input.                     -/
/- ------------------------------------------------------------------ -/

theorem add_token_run {s : List Char} {k : Nat} {toks : List Token} {ty : TokenType}
    {v : List Char} (ha : allAscii s) (hk : k ≤ s.length) :
    Lexer.add_token ⟨⟨s, k⟩, toks⟩ ty v =
      some ⟨⟨s, k⟩, toks ++ [⟨ty, v, locOf (s.take k)⟩]⟩ := by
  unfold Lexer.add_token
  show Option.bind (Input.current_location ⟨s, k⟩) _ = _
  rw [current_location_ascii ha hk]
  rfl

theorem questionBranch_end {s : List Char} {k : Nat} {toks : List Token} {ws : List Char}
    (ha : allAscii s) (hlen : s.length ≤ U32_MAX) (hd : s.drop k = '?' :: ws)
    (hws : ∀ c ∈ ws, is_whitespace c = true) :
    questionBranch ⟨⟨s, k⟩, toks⟩ =
      some (.stop ⟨⟨s, s.length⟩, toks ++ [⟨.EolDebug, ['?'], locOf s⟩]⟩) := by
  have hk : k < s.length := drop_lt_length hd
  have hd1 : s.drop (k + 1) = ws ++ [] := by simpa using drop_succ_of_drop hd
  have hparts := drop_parts_length hd1 (by omega)
  have hj : k + 1 + ws.length = s.length := by
    simp only [List.length_nil] at hparts; omega
  unfold questionBranch
  rw [read_one ha hd]
  simp only [Option.bind_eq_bind, Option.some_bind]
  rw [skip_ws_false ha hd1 hws (fun c t h => List.noConfusion h) (by omega) (by omega),
    Option.some_bind, hj]
  rw [if_neg (by rw [has_remaining_false ha (le_refl _)]; exact Bool.false_ne_true)]
  rw [add_token_run ha (le_refl _), List.take_length]
  rfl

theorem questionBranch_fail {s : List Char} {k : Nat} {toks : List Token} {ws : List Char}
    {c : Char} {t : List Char} (ha : allAscii s) (hlen : s.length ≤ U32_MAX)
    (hd : s.drop k = '?' :: (ws ++ c :: t)) (hws : ∀ d ∈ ws, is_whitespace d = true)
    (hc : is_whitespace c = false) :
    questionBranch ⟨⟨s, k⟩, toks⟩ =
      some (.fail (.DeadCode (locOf (s.take (k + 1 + ws.length))))) := by
  have hk : k < s.length := drop_lt_length hd
  have hd1 : s.drop (k + 1) = ws ++ c :: t := drop_succ_of_drop hd
  have hdj : s.drop (k + 1 + ws.length) = c :: t := drop_add_of_drop ws (c :: t) (k + 1) hd1
  have hjlt : k + 1 + ws.length < s.length := drop_lt_length hdj
  unfold questionBranch
  rw [read_one ha hd]
  simp only [Option.bind_eq_bind, Option.some_bind]
  rw [skip_ws_false ha hd1 hws
    (fun d u h => by rw [List.cons.injEq] at h; rw [← h.1]; exact hc) (by omega) (by omega),
    Option.some_bind]
  rw [if_pos (has_remaining_true ha hjlt)]
  rw [read_one ha hdj]
  simp only [Option.bind_eq_bind, Option.some_bind]
  rw [if_pos (by
    simp only [ne_eq, List.cons.injEq, and_true]
    exact not_ws_ne_newline hc)]
  simp only [Nat.add_sub_cancel]
  rw [current_location_ascii ha (by omega)]
  rfl

theorem bangBranch_end {s : List Char} {k : Nat} {toks : List Token} {ws tail : List Char}
    (ha : allAscii s) (hlen : s.length ≤ U32_MAX) (hd : s.drop k = '!' :: (ws ++ tail))
    (hws : ∀ c ∈ ws, is_whitespace c = true)
    (htail : ∀ c t, tail = c :: t → is_whitespace c = false)
    (hok : ∀ c ∈ tail, c = '!' ∨ c = '\n') :
    bangBranch ⟨⟨s, k⟩, toks⟩ =
      some (.stop ⟨⟨s, s.length⟩, toks ++ [⟨.Eol, '!' :: tail, locOf s⟩]⟩) := by
  have hk : k < s.length := drop_lt_length hd
  have hd1 : s.drop (k + 1) = ws ++ tail := drop_succ_of_drop hd
  have hdj : s.drop (k + 1 + ws.length) = tail := drop_add_of_drop ws tail (k + 1) hd1
  have hparts := drop_parts_length hd1 (by omega)
  unfold bangBranch
  rw [read_one ha hd]
  simp only [Option.bind_eq_bind, Option.some_bind]
  rw [skip_ws_false ha hd1 hws htail (by omega) (by omega), Option.some_bind]
  rw [remaining_length_ascii _ ha]
  rw [bangLoop_ok ha tail (k + 1 + ws.length) [] _ hdj hok
    (by have h2 := congrArg List.length hdj; simp only [List.length_drop] at h2; omega)
    (by omega)]
  simp only [Option.bind_eq_bind, Option.some_bind, List.nil_append]
  rw [add_token_run ha (le_refl _), List.take_length]
  rfl

theorem bangBranch_fail {s : List Char} {k : Nat} {toks : List Token}
    {ws good : List Char} {c : Char} {bad : List Char}
    (ha : allAscii s) (hlen : s.length ≤ U32_MAX)
    (hd : s.drop k = '!' :: (ws ++ (good ++ c :: bad)))
    (hws : ∀ d ∈ ws, is_whitespace d = true)
    (hhead : ∀ d u, good ++ c :: bad = d :: u → is_whitespace d = false)
    (hgood : ∀ d ∈ good, d = '!' ∨ d = '\n') (hbad : ¬(c = '!' ∨ c = '\n')) :
    bangBranch ⟨⟨s, k⟩, toks⟩ =
      some (.fail (.DeadCode (locOf (s.take (k + 1 + ws.length + good.length))))) := by
  have hk : k < s.length := drop_lt_length hd
  have hd1 : s.drop (k + 1) = ws ++ (good ++ c :: bad) := drop_succ_of_drop hd
  have hdj : s.drop (k + 1 + ws.length) = good ++ c :: bad :=
    drop_add_of_drop ws _ (k + 1) hd1
  have hjc : s.drop (k + 1 + ws.length + good.length) = c :: bad :=
    drop_add_of_drop good _ _ hdj
  have hjlt : k + 1 + ws.length + good.length < s.length := drop_lt_length hjc
  unfold bangBranch
  rw [read_one ha hd]
  simp only [Option.bind_eq_bind, Option.some_bind]
  rw [skip_ws_false ha hd1 hws hhead (by omega) (by omega), Option.some_bind]
  rw [remaining_length_ascii _ ha]
  rw [bangLoop_err ha good (k + 1 + ws.length) [] _ c bad hdj hgood hbad (by omega)]
  rfl

theorem stringBranch_fail {s : List Char} {k : Nat} {toks : List Token} {rest : List Char}
    (ha : allAscii s) (hd : s.drop k = quote :: rest) (hnq : ∀ c ∈ rest, ¬(c = quote)) :
    stringBranch ⟨⟨s, k⟩, toks⟩ = some (.fail (.UnterminatedString (locOf s))) := by
  have hk : k < s.length := drop_lt_length hd
  have hd1 : s.drop (k + 1) = rest := drop_succ_of_drop hd
  unfold stringBranch
  rw [read_one ha hd]
  simp only [Option.bind_eq_bind, Option.some_bind]
  rw [remaining_length_ascii _ ha]
  rw [stringLoop_run ha rest (k + 1) [] _ hd1 hnq
    (by have h2 := congrArg List.length hd1; simp only [List.length_drop] at h2; omega)
    (by omega)]
  simp only [Option.bind_eq_bind, Option.some_bind]
  rw [if_pos (has_remaining_false ha (le_refl _))]
  rw [show Input.current_location ⟨s, s.length⟩ = some (locOf s) from by
    rw [current_location_ascii ha (le_refl _), List.take_length]]
  rfl

theorem lexIdentifier_run {s : List Char} {k : Nat} {toks : List Token} {a : Char}
    {ds rest : List Char} (ha : allAscii s) (hd : s.drop k = (a :: ds) ++ rest)
    (hds : ∀ e ∈ ds, is_alphanumeric e = true)
    (hrest : ∀ c t, rest = c :: t → is_alphanumeric c = false) :
    lexIdentifier ⟨⟨s, k⟩, toks⟩ = some ⟨⟨s, k + ds.length⟩,
      toks ++ [⟨classifyIdent (a :: ds), a :: ds, locOf (s.take (k + 1 + ds.length))⟩]⟩ := by
  have hd' : s.drop k = a :: (ds ++ rest) := by simpa using hd
  have hk : k < s.length := drop_lt_length hd'
  have hd1 : s.drop (k + 1) = ds ++ rest := drop_succ_of_drop hd'
  have hparts := drop_parts_length hd1 (by omega)
  unfold lexIdentifier
  rw [show (⟨⟨s, k⟩, toks⟩ : Lexer).input = ⟨s, k⟩ from rfl]
  rw [read_one ha hd']
  simp only [Option.bind_eq_bind, Option.some_bind]
  rw [remaining_length_ascii _ ha]
  rw [identLoop_run ha ds rest (k + 1) [] _ hd1 hds hrest (by omega) (by omega)]
  simp only [Option.bind_eq_bind, Option.some_bind, List.nil_append, List.singleton_append]
  rw [add_token_run ha (by omega)]
  simp only [Option.bind_eq_bind, Option.pure_def, Option.some_bind]
  rw [show k + 1 + ds.length - 1 = k + ds.length from by omega]

theorem defaultBranch_number {s : List Char} {k : Nat} {toks : List Token} {d : Char}
    {ds : List Char} {c : Char} {bad : List Char} (ha : allAscii s)
    (hd : s.drop k = (d :: ds) ++ c :: bad) (hnum : ∀ e ∈ d :: ds, is_numeric e = true)
    (hc : is_numeric c = false) :
    defaultBranch d ⟨⟨s, k⟩, toks⟩ = some (.next ⟨⟨s, k + (ds.length + 1) + 1⟩,
      toks ++ [⟨.IntLiteral, d :: ds, locOf (s.take (k + (ds.length + 1)))⟩]⟩) := by
  have hd' : s.drop k = d :: (ds ++ c :: bad) := by simpa using hd
  have hk : k < s.length := drop_lt_length hd'
  have hparts := drop_parts_length hd (by omega)
  simp only [List.length_append, List.length_cons] at hparts
  unfold defaultBranch intPart identPart
  rw [if_pos (hnum d (List.mem_cons_self d ds))]
  rw [show (⟨⟨s, k⟩, toks⟩ : Lexer).input = ⟨s, k⟩ from rfl]
  rw [remaining_length_ascii _ ha]
  rw [numberLoop_run ha (d :: ds) (c :: bad) k [] _ hd hnum
    (fun e u h => by rw [List.cons.injEq] at h; rw [← h.1]; exact hc)
    (by simp only [List.length_cons]; omega) (by omega)]
  simp only [Option.bind_eq_bind, Option.some_bind, List.nil_append, List.length_cons]
  rw [add_token_run ha (by omega)]
  simp only [Option.bind_eq_bind, Option.pure_def, Option.some_bind]
  rw [if_neg (by rw [(numeric_char_facts (hnum d (List.mem_cons_self d ds))).2.1]
                 exact Bool.false_ne_true)]
  try simp only [Option.bind_eq_bind, Option.pure_def, Option.some_bind]
  exact finishIter_lt ha (by omega)

theorem defaultBranch_ident {s : List Char} {k : Nat} {toks : List Token} {a : Char}
    {ds rest : List Char} (ha : allAscii s) (hd : s.drop k = (a :: ds) ++ rest)
    (halpha : is_alphabetic a = true) (hds : ∀ e ∈ ds, is_alphanumeric e = true)
    (hrest : ∀ c t, rest = c :: t → is_alphanumeric c = false) :
    defaultBranch a ⟨⟨s, k⟩, toks⟩ = some (.next ⟨⟨s, k + ds.length + 1⟩,
      toks ++ [⟨classifyIdent (a :: ds), a :: ds, locOf (s.take (k + 1 + ds.length))⟩]⟩) := by
  have hd' : s.drop k = a :: (ds ++ rest) := by simpa using hd
  have hk : k < s.length := drop_lt_length hd'
  have hd1 : s.drop (k + 1) = ds ++ rest := drop_succ_of_drop hd'
  have hparts := drop_parts_length hd1 (by omega)
  unfold defaultBranch intPart identPart
  rw [if_neg (by rw [(alpha_char_facts halpha).2.1]; exact Bool.false_ne_true)]
  simp only [Option.bind_eq_bind, Option.pure_def, Option.some_bind]
  rw [if_pos halpha]
  rw [lexIdentifier_run ha hd hds hrest]
  simp only [Option.bind_eq_bind, Option.some_bind]
  exact finishIter_lt ha (by omega)

theorem addFinish_run {s : List Char} {k : Nat} {toks : List Token} {ty : TokenType}
    {v : List Char} (ha : allAscii s) (hk : k < s.length) :
    (do
      let lx2 ← Lexer.add_token ⟨⟨s, k⟩, toks⟩ ty v
      finishIter lx2) =
      some (.next ⟨⟨s, k + 1⟩, toks ++ [⟨ty, v, locOf (s.take k)⟩]⟩) := by
  rw [add_token_run ha (le_of_lt hk)]
  simp only [Option.bind_eq_bind, Option.some_bind]
  exact finishIter_lt ha hk

theorem stringLoop_stop {s : List Char} (ha : allAscii s) :
    ∀ (body rest : List Char) (k : Nat) (acc : List Char) (fuel : Nat),
      s.drop k = body ++ quote :: rest → (∀ c ∈ body, ¬(c = quote)) →
      body.length < fuel → k ≤ s.length →
      stringLoop fuel ⟨s, k⟩ acc = some (acc ++ body, ⟨s, k + body.length⟩) := by
  intro body
  induction body with
  | nil =>
    intro rest k acc fuel hd _ hfuel hk
    match fuel with
    | fuel + 1 =>
      have hd' : s.drop k = quote :: rest := by simpa using hd
      have hklt : k < s.length := drop_lt_length hd'
      rw [stringLoop, if_pos (has_remaining_true ha hklt), peek_of_drop hd']
      simp only []
      rw [if_neg (by simp)]
      simp
  | cons c t ih =>
    intro rest k acc fuel hd hnq hfuel hk
    match fuel with
    | fuel + 1 =>
      have hd' : s.drop k = c :: (t ++ quote :: rest) := by simpa using hd
      have hklt : k < s.length := drop_lt_length hd'
      rw [stringLoop, if_pos (has_remaining_true ha hklt), peek_of_drop hd']
      simp only []
      rw [if_pos (by simpa using hnq c (List.mem_cons_self c t)), read_one ha hd']
      simp only [Option.bind_eq_bind, Option.some_bind]
      rw [ih rest (k + 1) (acc ++ [c]) fuel (drop_succ_of_drop hd')
        (fun d hdm => hnq d (List.mem_cons_of_mem c hdm))
        (by simp only [List.length_cons] at hfuel; omega) (by omega)]
      simp only [List.length_cons, List.append_assoc, List.singleton_append]
      congr 3
      omega

theorem stringBranch_run {s : List Char} {k : Nat} {toks : List Token} {body rest : List Char}
    (ha : allAscii s) (hd : s.drop k = quote :: (body ++ quote :: rest))
    (hnq : ∀ c ∈ body, ¬(c = quote)) :
    stringBranch ⟨⟨s, k⟩, toks⟩ = some (.next ⟨⟨s, k + body.length + 2⟩,
      toks ++ [⟨.StringLiteral, body, locOf (s.take (k + 1 + body.length))⟩]⟩) := by
  have hk : k < s.length := drop_lt_length hd
  have hd1 : s.drop (k + 1) = body ++ quote :: rest := drop_succ_of_drop hd
  have hdj : s.drop (k + 1 + body.length) = quote :: rest :=
    drop_add_of_drop body _ (k + 1) hd1
  have hjlt : k + 1 + body.length < s.length := drop_lt_length hdj
  unfold stringBranch
  rw [read_one ha hd]
  simp only [Option.bind_eq_bind, Option.some_bind]
  rw [remaining_length_ascii _ ha]
  rw [stringLoop_stop ha body rest (k + 1) [] _ hd1 hnq
    (by have h2 := congrArg List.length hd1
        simp only [List.length_drop, List.length_append, List.length_cons] at h2
        omega)
    (by omega)]
  simp only [Option.bind_eq_bind, Option.some_bind, List.nil_append]
  rw [if_neg (by rw [has_remaining_true ha hjlt]; simp)]
  rw [add_token_run ha (by omega)]
  simp only [Option.bind_eq_bind, Option.some_bind]
  rw [finishIter_lt ha hjlt]
  rw [show k + 1 + body.length + 1 = k + body.length + 2 from by omega]

/- ------------------------------------------------------------------ -/
/- Helpers for the entry point.                                       -/
/- ------------------------------------------------------------------ -/

theorem lex_eq_of_loop_ok {inp : Input} {lx : Lexer}
    (h : lexLoop (byteLen inp.input + 1) { input := inp, tokens := [] } = some (.ok lx)) :
    lex inp = finalCheck lx := by
  unfold lex
  rw [h]

theorem lex_eq_of_loop_err {inp : Input} {e : LexError}
    (h : lexLoop (byteLen inp.input + 1) { input := inp, tokens := [] } = some (.error e)) :
    lex inp = some (.error e) := by
  unfold lex
  rw [h]

theorem lex_eq_of_loop_none {inp : Input}
    (h : lexLoop (byteLen inp.input + 1) { input := inp, tokens := [] } = none) :
    lex inp = none := by
  unfold lex
  rw [h]

/- ------------------------------------------------------------------ -/
/- The claims.                                                        -/
/- ------------------------------------------------------------------ -/

/-- C1: for every input, if `lex` returns Ok then the token sequence is empty
or its final token has kind Eol or EolDebug; and whenever the scan loop ends
normally (by exhaustion or break) with a non-empty token sequence whose last
token is neither of those two kinds, `lex` returns UnterminatedLine carrying
the current cursor location. -/
theorem claim1 (inp : Input) :
    (∀ ts, lex inp = some (.ok ts) →
      ts = [] ∨ ∃ last, ts.getLast? = some last ∧ (last.ty = .Eol ∨ last.ty = .EolDebug)) ∧
    (∀ lx, lexLoop (byteLen inp.input + 1) { input := inp, tokens := [] } = some (.ok lx) →
      lx.tokens ≠ [] →
      (∀ last, lx.tokens.getLast? = some last → ¬(last.ty = .Eol ∨ last.ty = .EolDebug)) →
      lex inp = Option.map (fun loc => Except.error (LexError.UnterminatedLine loc))
        lx.input.current_location) := by
  constructor
  · intro ts hts
    match hL : lexLoop (byteLen inp.input + 1) { input := inp, tokens := [] } with
    | none => rw [lex_eq_of_loop_none hL] at hts; exact absurd hts (by simp)
    | some (.error e) => rw [lex_eq_of_loop_err hL] at hts; simp at hts
    | some (.ok lx) =>
      rw [lex_eq_of_loop_ok hL] at hts
      unfold finalCheck at hts
      split at hts
      · -- last token present
        rename_i last hlast
        split at hts
        · -- bad last token: the result is an error or an abort, contradiction
          match hcl : lx.input.current_location with
          | none => rw [hcl] at hts; simp at hts
          | some loc => rw [hcl] at hts; simp at hts
        · -- good last token
          rename_i hgood
          rw [not_not] at hgood
          simp only [Option.pure_def, Option.some_inj] at hts
          injection hts with h2
          right
          exact ⟨last, by rw [← h2]; exact hlast, hgood⟩
      · -- empty token list
        rename_i hlast
        simp only [Option.pure_def, Option.some_inj] at hts
        injection hts with h2
        left
        rw [← h2]
        exact List.getLast?_eq_none_iff.mp hlast
  · intro lx hL hne hbad
    rw [lex_eq_of_loop_ok hL]
    unfold finalCheck
    split
    · rename_i last hlast
      rw [if_pos (hbad last hlast)]
      match lx.input.current_location with
      | none => rfl
      | some loc => rfl
    · rename_i hlast
      exact absurd (List.getLast?_eq_none_iff.mp hlast) hne

/-- C1 witness: the input `"="` exercises the second conjunct: the scan
loop ends by exhaustion with last token Equals, and `lex` returns
UnterminatedLine at line 1, column 2 (the end-of-input position). -/
theorem claim1_witness :
    lex (Input.of ['=']) = some (.error (.UnterminatedLine ⟨1, 2⟩)) := by
  have h := (claim1 (Input.of ['='])).2
    ⟨⟨['='], 1⟩, [⟨.Equals, ['='], ⟨1, 1⟩⟩]⟩ rfl (by simp)
    (by intro last hl
        injection hl with h2
        subst h2
        decide)
  exact h.trans rfl

/-- C2 (code bug): the claim says that a `'='` whose following input
character is `'>'` lexes to an Arrow token with text `"=>"`.  The code
instead emits Equals and silently skips the `'>'`, because the dispatch
peeks the not-yet-consumed `'='` itself: lexing `"=>!"` yields an Equals
token and no Arrow token. -/
theorem claim2 :
    lex (Input.of ['=', '>', '!']) =
      some (.ok [⟨.Equals, ['='], ⟨1, 1⟩⟩, ⟨.Eol, ['!'], ⟨1, 4⟩⟩]) ∧
    ∀ t_ ∈ [⟨.Equals, ['='], ⟨1, 1⟩⟩, (⟨.Eol, ['!'], ⟨1, 4⟩⟩ : Token)],
      t_.ty ≠ TokenType.Arrow := by
  exact ⟨rfl, by decide⟩

/-- C3 counterexample: the claim says text following `"?\n"` is not
validated and accepted silently; but lexing `"?\nx"` fails with DeadCode at
line 2, column 1, because `skip_whitespace` also consumes the newline and
the single character then read is `'x'`, not a newline. -/
theorem claim3_counterexample :
    lex (Input.of ['?', '\n', 'x']) = some (.error (.DeadCode ⟨2, 1⟩)) := rfl

/-- C3 (amended): after the `'?'` the lexer skips every whitespace character
(newlines included).  If only whitespace followed the `'?'`, the iteration
emits a final EolDebug token and stops the scan; if any non-whitespace
character remains after that skip — even beyond a newline — the lexer fails
with DeadCode at that character's position.  Concretely, `"?\n"` lexes to a
single EolDebug token. -/
theorem claim3 {s : List Char} {k : Nat} {toks : List Token} {ws tail : List Char}
    (ha : allAscii s) (hlen : s.length ≤ U32_MAX)
    (hd : s.drop k = '?' :: (ws ++ tail)) (hws : ∀ c ∈ ws, is_whitespace c = true)
    (htail : ∀ c t, tail = c :: t → is_whitespace c = false) :
    (tail = [] → lexIter ⟨⟨s, k⟩, toks⟩ =
      some (.stop ⟨⟨s, s.length⟩, toks ++ [⟨.EolDebug, ['?'], locOf s⟩]⟩)) ∧
    (∀ c t, tail = c :: t → lexIter ⟨⟨s, k⟩, toks⟩ =
      some (.fail (.DeadCode (locOf (s.take (k + 1 + ws.length)))))) ∧
    lex (Input.of ['?', '\n']) = some (.ok [⟨.EolDebug, ['?'], ⟨2, 1⟩⟩]) := by
  refine ⟨?_, ?_, rfl⟩
  · intro htl
    subst htl
    rw [lexIter_head ha hd (by decide), dispatch_question]
    exact questionBranch_end ha hlen (by simpa using hd) hws
  · intro c t htl
    subst htl
    rw [lexIter_head ha hd (by decide), dispatch_question]
    exact questionBranch_fail ha hlen hd hws
      (by have := htail c t rfl; exact this)

/-- C3 witness: instantiation of both generic conjuncts: `"x ?\n"` seen at
the `'?'` (success) and `"? x"` seen at the `'?'` (DeadCode at `'x'`,
line 1 column 3). -/
theorem claim3_witness :
    lexIter ⟨⟨['?', '\n'], 0⟩, []⟩ =
      some (.stop ⟨⟨['?', '\n'], 2⟩, [⟨.EolDebug, ['?'], ⟨2, 1⟩⟩]⟩) ∧
    lexIter ⟨⟨['?', ' ', 'x'], 0⟩, []⟩ = some (.fail (.DeadCode ⟨1, 3⟩)) := by
  constructor
  · have h := (@claim3 ['?', '\n'] 0 [] ['\n'] []
      (by decide) (by decide) (by decide) (by decide) (fun c t h => List.noConfusion h)).1 rfl
    exact h.trans rfl
  · have h := ((@claim3 ['?', ' ', 'x'] 0 [] [' ']
      ['x'] (by decide) (by decide) (by decide) (by decide)
      (by intro c t h2; injection h2 with h3 h4; subst h3; decide)).2.1) 'x' [] rfl
    exact h.trans rfl

/-- C4: the strict `'!'` marker: after the `'!'` and the following
whitespace run, if every remaining character is `'!'` or a newline the
iteration emits a final Eol token and stops the scan; otherwise the first
offending character produces DeadCode at that character's position. -/
theorem claim4 {s : List Char} {k : Nat} {toks : List Token} {ws tail : List Char}
    (ha : allAscii s) (hlen : s.length ≤ U32_MAX)
    (hd : s.drop k = '!' :: (ws ++ tail)) (hws : ∀ c ∈ ws, is_whitespace c = true)
    (htail : ∀ c t, tail = c :: t → is_whitespace c = false) :
    ((∀ c ∈ tail, c = '!' ∨ c = '\n') → lexIter ⟨⟨s, k⟩, toks⟩ =
      some (.stop ⟨⟨s, s.length⟩, toks ++ [⟨.Eol, '!' :: tail, locOf s⟩]⟩)) ∧
    (∀ good c bad, tail = good ++ c :: bad → (∀ d ∈ good, d = '!' ∨ d = '\n') →
      ¬(c = '!' ∨ c = '\n') → lexIter ⟨⟨s, k⟩, toks⟩ =
      some (.fail (.DeadCode (locOf (s.take (k + 1 + ws.length + good.length)))))) := by
  constructor
  · intro hok
    rw [lexIter_head ha hd (by decide), dispatch_bang]
    exact bangBranch_end ha hlen hd hws htail hok
  · intro good c bad htl hgood hbad
    subst htl
    rw [lexIter_head ha hd (by decide), dispatch_bang]
    exact bangBranch_fail ha hlen hd hws htail hgood hbad

/-- C4 witness: instantiation of both conjuncts: `"! !"` succeeds with a
final Eol token, and `"! x"` fails with DeadCode at `'x'` (line 1,
column 3). -/
theorem claim4_witness :
    lexIter ⟨⟨['!', ' ', '!'], 0⟩, []⟩ =
      some (.stop ⟨⟨['!', ' ', '!'], 3⟩, [⟨.Eol, ['!', '!'], ⟨1, 4⟩⟩]⟩) ∧
    lexIter ⟨⟨['!', ' ', 'x'], 0⟩, []⟩ = some (.fail (.DeadCode ⟨1, 3⟩)) := by
  constructor
  · have h := (@claim4 ['!', ' ', '!'] 0 [] [' ']
      ['!'] (by decide) (by decide) (by decide) (by decide)
      (by intro c t h2; injection h2 with h3 h4; subst h3; decide)).1 (by decide)
    exact h.trans rfl
  · have h := (@claim4 ['!', ' ', 'x'] 0 [] [' ']
      ['x'] (by decide) (by decide) (by decide) (by decide)
      (by intro c t h2; injection h2 with h3 h4; subst h3; decide)).2 [] 'x' [] rfl
      (by simp) (by decide)
    exact h.trans rfl

/-- C6 counterexample: the claim says every token's recorded location is the
cursor position immediately following the token's last consumed character;
but lexing `",!"` records the Comma token at line 1, column 1 — the position
of the `','` itself, still unconsumed when `add_token` runs — not column 2. -/
theorem claim6_counterexample :
    lex (Input.of [',', '!']) =
      some (.ok [⟨.Comma, [','], ⟨1, 1⟩⟩, ⟨.Eol, ['!'], ⟨1, 3⟩⟩]) ∧
    (⟨1, 1⟩ : Location) ≠ ⟨1, 2⟩ := ⟨rfl, by decide⟩

/-- C6 (amended): a token's location is the cursor position at the moment
`add_token` runs.  The single-character dispatch tokens (Comma, LParen,
RParen, LBrace, RBrace, the `';'` marker, Equals) record the position of the
character itself, which is only consumed by the post-dispatch advance; a
StringLiteral records the position of its closing quote, likewise still
unconsumed; and tokens whose characters are consumed inside their own branch
(identifiers, integer literals, the Eol/EolDebug markers) record the
position immediately following their consumed characters.  Proved
universally over every scan state (arbitrary position and prior tokens) for
every token kind. -/
theorem claim6 :
    (∀ (s : List Char) (k : Nat) (toks : List Token) (t : List Char), allAscii s →
      s.drop k = ',' :: t → lexIter ⟨⟨s, k⟩, toks⟩ =
        some (.next ⟨⟨s, k + 1⟩, toks ++ [⟨.Comma, [','], locOf (s.take k)⟩]⟩)) ∧
    (∀ (s : List Char) (k : Nat) (toks : List Token) (t : List Char), allAscii s →
      s.drop k = '(' :: t → lexIter ⟨⟨s, k⟩, toks⟩ =
        some (.next ⟨⟨s, k + 1⟩, toks ++ [⟨.Lparen, ['('], locOf (s.take k)⟩]⟩)) ∧
    (∀ (s : List Char) (k : Nat) (toks : List Token) (t : List Char), allAscii s →
      s.drop k = ')' :: t → lexIter ⟨⟨s, k⟩, toks⟩ =
        some (.next ⟨⟨s, k + 1⟩, toks ++ [⟨.Rparen, [')'], locOf (s.take k)⟩]⟩)) ∧
    (∀ (s : List Char) (k : Nat) (toks : List Token) (t : List Char), allAscii s →
      s.drop k = Char.ofNat 123 :: t → lexIter ⟨⟨s, k⟩, toks⟩ =
        some (.next ⟨⟨s, k + 1⟩, toks ++ [⟨.Lbrace, [Char.ofNat 123], locOf (s.take k)⟩]⟩)) ∧
    (∀ (s : List Char) (k : Nat) (toks : List Token) (t : List Char), allAscii s →
      s.drop k = Char.ofNat 125 :: t → lexIter ⟨⟨s, k⟩, toks⟩ =
        some (.next ⟨⟨s, k + 1⟩, toks ++ [⟨.Rbrace, [Char.ofNat 125], locOf (s.take k)⟩]⟩)) ∧
    (∀ (s : List Char) (k : Nat) (toks : List Token) (t : List Char), allAscii s →
      s.drop k = ';' :: t → lexIter ⟨⟨s, k⟩, toks⟩ =
        some (.next ⟨⟨s, k + 1⟩, toks ++ [⟨.Not, [';'], locOf (s.take k)⟩]⟩)) ∧
    (∀ (s : List Char) (k : Nat) (toks : List Token) (t : List Char), allAscii s →
      s.drop k = '=' :: t → lexIter ⟨⟨s, k⟩, toks⟩ =
        some (.next ⟨⟨s, k + 1⟩, toks ++ [⟨.Equals, ['='], locOf (s.take k)⟩]⟩)) ∧
    (∀ (s : List Char) (k : Nat) (toks : List Token) (body rest : List Char), allAscii s →
      s.drop k = quote :: (body ++ quote :: rest) → (∀ c ∈ body, ¬(c = quote)) →
      lexIter ⟨⟨s, k⟩, toks⟩ = some (.next ⟨⟨s, k + body.length + 2⟩,
        toks ++ [⟨.StringLiteral, body, locOf (s.take (k + 1 + body.length))⟩]⟩)) ∧
    (∀ (s : List Char) (k : Nat) (toks : List Token) (a : Char) (ds rest : List Char),
      allAscii s → s.drop k = (a :: ds) ++ rest → is_alphabetic a = true →
      (∀ e ∈ ds, is_alphanumeric e = true) →
      (∀ c t, rest = c :: t → is_alphanumeric c = false) →
      lexIter ⟨⟨s, k⟩, toks⟩ = some (.next ⟨⟨s, k + ds.length + 1⟩,
        toks ++ [⟨classifyIdent (a :: ds), a :: ds, locOf (s.take (k + 1 + ds.length))⟩]⟩)) ∧
    (∀ (s : List Char) (k : Nat) (toks : List Token) (d : Char) (ds : List Char) (c : Char)
      (bad : List Char), allAscii s → s.drop k = (d :: ds) ++ c :: bad →
      (∀ e ∈ d :: ds, is_numeric e = true) → is_numeric c = false →
      lexIter ⟨⟨s, k⟩, toks⟩ = some (.next ⟨⟨s, k + (ds.length + 1) + 1⟩,
        toks ++ [⟨.IntLiteral, d :: ds, locOf (s.take (k + (ds.length + 1)))⟩]⟩)) ∧
    (∀ (s : List Char) (k : Nat) (toks : List Token) (ws tail : List Char), allAscii s →
      s.length ≤ U32_MAX → s.drop k = '!' :: (ws ++ tail) →
      (∀ c ∈ ws, is_whitespace c = true) →
      (∀ c t, tail = c :: t → is_whitespace c = false) →
      (∀ c ∈ tail, c = '!' ∨ c = '\n') →
      lexIter ⟨⟨s, k⟩, toks⟩ =
        some (.stop ⟨⟨s, s.length⟩, toks ++ [⟨.Eol, '!' :: tail, locOf s⟩]⟩)) ∧
    (∀ (s : List Char) (k : Nat) (toks : List Token) (ws : List Char), allAscii s →
      s.length ≤ U32_MAX → s.drop k = '?' :: ws → (∀ c ∈ ws, is_whitespace c = true) →
      lexIter ⟨⟨s, k⟩, toks⟩ =
        some (.stop ⟨⟨s, s.length⟩, toks ++ [⟨.EolDebug, ['?'], locOf s⟩]⟩)) := by
  refine ⟨?_, ?_, ?_, ?_, ?_, ?_, ?_, ?_, ?_, ?_, ?_, ?_⟩
  · intro s k toks t ha hd
    rw [lexIter_head ha hd (by decide)]
    exact addFinish_run ha (drop_lt_length hd)
  · intro s k toks t ha hd
    rw [lexIter_head ha hd (by decide)]
    exact addFinish_run ha (drop_lt_length hd)
  · intro s k toks t ha hd
    rw [lexIter_head ha hd (by decide)]
    exact addFinish_run ha (drop_lt_length hd)
  · intro s k toks t ha hd
    rw [lexIter_head ha hd (by decide)]
    exact addFinish_run ha (drop_lt_length hd)
  · intro s k toks t ha hd
    rw [lexIter_head ha hd (by decide)]
    exact addFinish_run ha (drop_lt_length hd)
  · intro s k toks t ha hd
    rw [lexIter_head ha hd (by decide)]
    exact addFinish_run ha (drop_lt_length hd)
  · intro s k toks t ha hd
    rw [lexIter_head ha hd (by decide)]
    show equalsBranch ⟨⟨s, k⟩, toks⟩ = _
    unfold equalsBranch
    rw [show (⟨⟨s, k⟩, toks⟩ : Lexer).input = (⟨s, k⟩ : Input) from rfl]
    rw [peek_of_drop hd]
    rw [if_neg (by decide)]
    exact addFinish_run ha (drop_lt_length hd)
  · intro s k toks body rest ha hd hnq
    rw [lexIter_head ha hd (by decide), dispatch_quote]
    exact stringBranch_run ha hd hnq
  · intro s k toks a ds rest ha hd halpha hds hrest
    obtain ⟨hw, hnum, h1, h2, h3, h4, h5, h6, h7, h8, h9, h10, h11⟩ := alpha_char_facts halpha
    rw [lexIter_head ha (by simpa using hd) hw,
      dispatch_other _ h1 h2 h3 h4 h5 h6 h7 h8 h9 h10 h11]
    exact defaultBranch_ident ha hd halpha hds hrest
  · intro s k toks d ds c bad ha hd hnum hc
    obtain ⟨hw, halpha, h1, h2, h3, h4, h5, h6, h7, h8, h9, h10, h11⟩ :=
      numeric_char_facts (hnum d (List.mem_cons_self d ds))
    rw [lexIter_head ha (by simpa using hd) hw,
      dispatch_other _ h1 h2 h3 h4 h5 h6 h7 h8 h9 h10 h11]
    exact defaultBranch_number ha hd hnum hc
  · intro s k toks ws tail ha hlen hd hws htail hok
    rw [lexIter_head ha hd (by decide), dispatch_bang]
    exact bangBranch_end ha hlen hd hws htail hok
  · intro s k toks ws ha hlen hd hws
    rw [lexIter_head ha hd (by decide), dispatch_question]
    exact questionBranch_end ha hlen hd hws

/-- C6 witness: instantiations with a non-trivial position and prior tokens:
the Comma of `",!"` is recorded at (1,1), the comma's own position; the
StringLiteral of `"\"a\"!"` is recorded at (1,3), the closing quote's
position; and the Equals of `"x=2!"` (dispatched at position 1 after an
Identifier token) is recorded at (1,2), the position of the `'='` itself. -/
theorem claim6_witness :
    lexIter ⟨⟨[',', '!'], 0⟩, []⟩ =
      some (.next ⟨⟨[',', '!'], 1⟩, [⟨.Comma, [','], ⟨1, 1⟩⟩]⟩) ∧
    lexIter ⟨⟨[quote, 'a', quote, '!'], 0⟩, []⟩ =
      some (.next ⟨⟨[quote, 'a', quote, '!'], 3⟩, [⟨.StringLiteral, ['a'], ⟨1, 3⟩⟩]⟩) ∧
    lexIter ⟨⟨['x', '=', '2', '!'], 1⟩, [⟨.Identifier, ['x'], ⟨1, 2⟩⟩]⟩ =
      some (.next ⟨⟨['x', '=', '2', '!'], 2⟩,
        [⟨.Identifier, ['x'], ⟨1, 2⟩⟩, ⟨.Equals, ['='], ⟨1, 2⟩⟩]⟩) := by
  refine ⟨?_, ?_, ?_⟩
  · have h := claim6.1 [',', '!'] 0 [] ['!'] (by decide) (by decide)
    exact h.trans rfl
  · have h := claim6.2.2.2.2.2.2.2.1 [quote, 'a', quote, '!'] 0 [] ['a'] ['!']
      (by decide) (by decide) (by decide)
    exact h.trans rfl
  · have h := claim6.2.2.2.2.2.2.1 ['x', '=', '2', '!'] 1 [⟨.Identifier, ['x'], ⟨1, 2⟩⟩]
      ['2', '!'] (by decide) (by decide)
    exact h.trans rfl

/-- C7: an integer literal's trailing boundary character is consumed by the
scan loop's unconditional post-dispatch advance without being tokenized: the
iteration appends only the IntLiteral token yet moves the cursor one place
beyond the literal's end.  Concretely, `"12,!"` lexes to an IntLiteral and
the final Eol with no Comma token. -/
theorem claim7 :
    (∀ (s : List Char) (k : Nat) (toks : List Token) (d : Char) (ds : List Char) (c : Char)
      (bad : List Char), allAscii s → s.drop k = (d :: ds) ++ c :: bad →
      (∀ e ∈ d :: ds, is_numeric e = true) → is_numeric c = false →
      lexIter ⟨⟨s, k⟩, toks⟩ = some (.next ⟨⟨s, k + (ds.length + 1) + 1⟩,
        toks ++ [⟨.IntLiteral, d :: ds, locOf (s.take (k + (ds.length + 1)))⟩]⟩)) ∧
    lex (Input.of ['1', '2', ',', '!']) =
      some (.ok [⟨.IntLiteral, ['1', '2'], ⟨1, 3⟩⟩, ⟨.Eol, ['!'], ⟨1, 5⟩⟩]) := by
  refine ⟨?_, rfl⟩
  intro s k toks d ds c bad ha hd hnum hc
  obtain ⟨hw, halpha, h1, h2, h3, h4, h5, h6, h7, h8, h9, h10, h11⟩ :=
    numeric_char_facts (hnum d (List.mem_cons_self d ds))
  rw [lexIter_head ha (by simpa using hd) hw,
    dispatch_other _ h1 h2 h3 h4 h5 h6 h7 h8 h9 h10 h11]
  exact defaultBranch_number ha hd hnum hc

/-- C7 witness: the generic conjunct instantiated on `"12,!"` seen at the
first digit: the iteration emits IntLiteral `"12"` and leaves the cursor
past the comma. -/
theorem claim7_witness :
    lexIter ⟨⟨['1', '2', ',', '!'], 0⟩, []⟩ =
      some (.next ⟨⟨['1', '2', ',', '!'], 3⟩,
        [⟨.IntLiteral, ['1', '2'], ⟨1, 3⟩⟩]⟩) := by
  have h := claim7.1 ['1', '2', ',', '!'] 0 [] '1' ['2'] ',' ['!']
    (by decide) (by decide) (by decide) (by decide)
  exact h.trans rfl

/-- C8: whenever end of input is reached while scanning a string literal
opened by a quote — at any scan position, with any previously emitted
tokens — the iteration fails with UnterminatedString carrying the
end-of-input location (`locOf s`), and `lex` returns that error with no
token sequence alongside: even tokens already accumulated before the open
quote are discarded, as in `"(\"ab"` where the Lparen token is dropped. -/
theorem claim8 :
    (∀ (s : List Char) (k : Nat) (toks : List Token) (rest : List Char), allAscii s →
      s.drop k = quote :: rest → (∀ c ∈ rest, ¬(c = quote)) →
      lexIter ⟨⟨s, k⟩, toks⟩ = some (.fail (.UnterminatedString (locOf s)))) ∧
    (∀ (inner : List Char), allAscii inner → (∀ c ∈ inner, ¬(c = quote)) →
      lex (Input.of (quote :: inner)) =
        some (.error (.UnterminatedString (locOf (quote :: inner)))) ∧
      ∀ ts, ¬(lex (Input.of (quote :: inner)) = some (.ok ts))) ∧
    lex (Input.of ['(', quote, 'a', 'b']) =
      some (.error (.UnterminatedString ⟨1, 5⟩)) ∧
    (∀ ts, ¬(lex (Input.of ['(', quote, 'a', 'b']) = some (.ok ts))) := by
  have hgen : ∀ (s : List Char) (k : Nat) (toks : List Token) (rest : List Char),
      allAscii s → s.drop k = quote :: rest → (∀ c ∈ rest, ¬(c = quote)) →
      lexIter ⟨⟨s, k⟩, toks⟩ = some (.fail (.UnterminatedString (locOf s))) := by
    intro s k toks rest ha hd hnq
    rw [lexIter_head ha hd (by decide), dispatch_quote]
    exact stringBranch_fail ha hd hnq
  have hold : ∀ (inner : List Char), allAscii inner → (∀ c ∈ inner, ¬(c = quote)) →
      lex (Input.of (quote :: inner)) =
        some (.error (.UnterminatedString (locOf (quote :: inner)))) ∧
      ∀ ts, ¬(lex (Input.of (quote :: inner)) = some (.ok ts)) := by
    intro inner ha hnq
    have ha' : allAscii (quote :: inner) := by
      intro c hc
      rcases List.mem_cons.mp hc with hc | hc
      · subst hc; decide
      · exact ha c hc
    have hloop : lexLoop (byteLen (quote :: inner) + 1) ⟨⟨quote :: inner, 0⟩, []⟩ =
        some (.error (.UnterminatedString (locOf (quote :: inner)))) := by
      rw [lexLoop_succ]
      rw [if_pos (has_remaining_true ha' (by simp))]
      rw [hgen (quote :: inner) 0 [] inner ha' rfl hnq]
    have hmain : lex (Input.of (quote :: inner)) =
        some (.error (.UnterminatedString (locOf (quote :: inner)))) :=
      lex_eq_of_loop_err hloop
    exact ⟨hmain, fun ts hts => by rw [hmain] at hts; simp at hts⟩
  have hpre : lex (Input.of ['(', quote, 'a', 'b']) =
      some (.error (.UnterminatedString ⟨1, 5⟩)) := rfl
  exact ⟨hgen, hold, hpre, fun ts hts => by rw [hpre] at hts; simp at hts⟩

/-- C8 witness: the unterminated literal inside `"(\"ab"`, dispatched at
position 1 with a Lparen token already emitted, fails with
UnterminatedString at (1,5), the end-of-input location; and the whole-input
case `"\"ab"` fails at (1,4). -/
theorem claim8_witness :
    lexIter ⟨⟨['(', quote, 'a', 'b'], 1⟩, [⟨.Lparen, ['('], ⟨1, 1⟩⟩]⟩ =
      some (.fail (.UnterminatedString ⟨1, 5⟩)) ∧
    lex (Input.of [quote, 'a', 'b']) =
      some (.error (.UnterminatedString ⟨1, 4⟩)) := by
  constructor
  · have h := claim8.1 ['(', quote, 'a', 'b'] 1 [⟨.Lparen, ['('], ⟨1, 1⟩⟩] ['a', 'b']
      (by decide) (by decide) (by decide)
    exact h.trans rfl
  · have h := (claim8.2.1 ['a', 'b'] (by decide) (by decide)).1
    exact h.trans rfl

/-- C9 (code bug): the claim says `lex` is total on arbitrary input,
including multi-byte characters.  On the one-character input `"é"`
(U+00E9, two UTF-8 bytes) the byte-indexed slice `remaining[0..1]` inside
`peek_string_chars` falls inside the character, which in Rust aborts the
program; in the model both that slice and the whole `lex` run return
`none`. -/
theorem claim9 :
    lex (Input.of [Char.ofNat 233]) = none ∧
    Input.peek_string_chars ⟨[Char.ofNat 233], 0⟩ 1 = none := ⟨rfl, rfl⟩

/-- C5: the identifier/keyword sub-scanner consumes a maximal alphanumeric
word starting with an alphabetic character and classifies it:
FunctionDeclaration exactly on the eight strict prefixes of `"function"`,
PrimitiveType exactly on Int/String/Char/Digit/Bool, BoolLiteral exactly on
true/false/maybe, Return exactly on `"return"`, and Identifier on every
other word. -/
theorem claim5 :
    (∀ w, classifyIdent w = .FunctionDeclaration ↔ w ∈ functionPrefixes) ∧
    (∀ w, classifyIdent w = .Primitive ↔ w ∈ primitiveNames) ∧
    (∀ w, classifyIdent w = .BoolLiteral ↔ w ∈ boolNames) ∧
    (∀ w, classifyIdent w = .Return ↔ w = returnName) ∧
    (∀ w, classifyIdent w = .Identifier ↔
      (w ∉ functionPrefixes ∧ w ∉ primitiveNames ∧ w ∉ boolNames ∧ w ≠ returnName)) ∧
    (∀ (s : List Char) (k : Nat) (toks : List Token) (a : Char) (ds rest : List Char),
      allAscii s → s.drop k = (a :: ds) ++ rest → is_alphabetic a = true →
      (∀ e ∈ ds, is_alphanumeric e = true) →
      (∀ c t, rest = c :: t → is_alphanumeric c = false) →
      lexIter ⟨⟨s, k⟩, toks⟩ = some (.next ⟨⟨s, k + ds.length + 1⟩,
        toks ++ [⟨classifyIdent (a :: ds), a :: ds, locOf (s.take (k + 1 + ds.length))⟩]⟩)) := by
  refine ⟨?_, ?_, ?_, ?_, ?_, ?_⟩
  · intro w
    constructor
    · intro h
      unfold classifyIdent at h
      split_ifs at h
      assumption
    · intro hmem
      unfold classifyIdent
      rw [if_pos hmem]
  · intro w
    constructor
    · intro h
      unfold classifyIdent at h
      split_ifs at h
      assumption
    · intro hmem
      fin_cases hmem <;> decide
  · intro w
    constructor
    · intro h
      unfold classifyIdent at h
      split_ifs at h
      assumption
    · intro hmem
      fin_cases hmem <;> decide
  · intro w
    constructor
    · intro h
      unfold classifyIdent at h
      split_ifs at h
      assumption
    · intro hmem
      subst hmem
      decide
  · intro w
    constructor
    · intro h
      unfold classifyIdent at h
      split_ifs at h
      exact ⟨by assumption, by assumption, by assumption, by assumption⟩
    · intro hne
      unfold classifyIdent
      rw [if_neg hne.1, if_neg hne.2.1, if_neg hne.2.2.1, if_neg hne.2.2.2]
  · intro s k toks a ds rest ha hd halpha hds hrest
    obtain ⟨hw, hnum, h1, h2, h3, h4, h5, h6, h7, h8, h9, h10, h11⟩ := alpha_char_facts halpha
    rw [lexIter_head ha (by simpa using hd) hw,
      dispatch_other _ h1 h2 h3 h4 h5 h6 h7 h8 h9 h10 h11]
    exact defaultBranch_ident ha hd halpha hds hrest

/-- C5 witness: `"fu"` is a FunctionDeclaration keyword, `"fx"` is an
ordinary Identifier, and one scan-loop iteration on `"fx!"` emits exactly
the Identifier token for the maximal word `"fx"`. -/
theorem claim5_witness :
    classifyIdent ['f', 'u'] = .FunctionDeclaration ∧
    classifyIdent ['f', 'x'] = .Identifier ∧
    lexIter ⟨⟨['f', 'x', '!'], 0⟩, []⟩ = some (.next ⟨⟨['f', 'x', '!'], 2⟩,
      [⟨.Identifier, ['f', 'x'], ⟨1, 3⟩⟩]⟩) := by
  refine ⟨(claim5.1 ['f', 'u']).mpr (by decide),
    (claim5.2.2.2.2.1 ['f', 'x']).mpr (by decide), ?_⟩
  have h := claim5.2.2.2.2.2 ['f', 'x', '!'] 0 [] 'f' ['x'] ['!'] (by decide) (by decide)
    (by decide) (by decide) (by intro c t h2; injection h2 with h3 h4; subst h3; decide)
  exact h.trans rfl

/- ------------------------------------------------------------------ -/
/- The Arrow-freeness invariant (C10).                                -/
/- ------------------------------------------------------------------ -/

/-- No token of the list is an Arrow token. -/
def ArrowFree (ts : List Token) : Prop := ∀ tok ∈ ts, tok.ty ≠ TokenType.Arrow

/-- Arrow-freeness of a scan-loop iteration outcome. -/
def StepArrowFree : StepRes → Prop
  | .next lx => ArrowFree lx.tokens
  | .stop lx => ArrowFree lx.tokens
  | .fail _ => True

theorem classifyIdent_ne_arrow (w : List Char) : classifyIdent w ≠ .Arrow := by
  unfold classifyIdent
  split_ifs <;> decide

theorem arrowFree_append {ts : List Token} {tok : Token} (h : ArrowFree ts)
    (hty : tok.ty ≠ .Arrow) : ArrowFree (ts ++ [tok]) := by
  intro t ht
  rcases List.mem_append.mp ht with ht | ht
  · exact h t ht
  · have h2 := List.mem_singleton.mp ht
    subst h2
    exact hty

theorem add_token_cases {lx lx' : Lexer} {ty : TokenType} {v : List Char}
    (h : Lexer.add_token lx ty v = some lx') :
    lx'.input = lx.input ∧ ∃ loc, lx'.tokens = lx.tokens ++ [⟨ty, v, loc⟩] := by
  unfold Lexer.add_token at h
  match hcl : lx.input.current_location with
  | none => rw [hcl] at h; simp at h
  | some loc =>
    rw [hcl] at h
    simp only [Option.bind_eq_bind, Option.some_bind, Option.pure_def, Option.some_inj] at h
    subst h
    exact ⟨rfl, loc, rfl⟩

theorem add_token_arrowFree {lx lx' : Lexer} {ty : TokenType} {v : List Char}
    (h : Lexer.add_token lx ty v = some lx') (hna : ArrowFree lx.tokens)
    (hty : ty ≠ TokenType.Arrow) : ArrowFree lx'.tokens := by
  obtain ⟨-, loc, htoks⟩ := add_token_cases h
  rw [htoks]
  exact arrowFree_append hna hty

theorem finishIter_arrowFree {lx : Lexer} {r : StepRes} (h : finishIter lx = some r)
    (hna : ArrowFree lx.tokens) : StepArrowFree r := by
  unfold finishIter at h
  match hr : lx.input.read 1 with
  | none => rw [hr] at h; simp at h
  | some (str, inp) =>
    rw [hr] at h
    simp only [Option.bind_eq_bind, Option.some_bind, Option.pure_def, Option.some_inj] at h
    subst h
    exact hna

theorem addFinish_arrowFree {lx : Lexer} {r : StepRes} {ty : TokenType} {v : List Char}
    (hty : ty ≠ TokenType.Arrow)
    (h : (do
      let lx2 ← Lexer.add_token lx ty v
      finishIter lx2) = some r)
    (hna : ArrowFree lx.tokens) : StepArrowFree r := by
  match ha : Lexer.add_token lx ty v with
  | none => rw [ha] at h; simp at h
  | some lx2 =>
    rw [ha] at h
    simp only [Option.bind_eq_bind, Option.some_bind] at h
    exact finishIter_arrowFree h (add_token_arrowFree ha hna hty)

theorem stringBranch_arrowFree {lx : Lexer} {r : StepRes} (h : stringBranch lx = some r)
    (hna : ArrowFree lx.tokens) : StepArrowFree r := by
  unfold stringBranch at h
  match h1 : lx.input.read 1 with
  | none => rw [h1] at h; simp at h
  | some (s1, inp1) =>
    rw [h1] at h
    simp only [Option.bind_eq_bind, Option.some_bind] at h
    match h2 : stringLoop (inp1.remaining_length + 1) inp1 [] with
    | none => rw [h2] at h; simp at h
    | some (str, inp2) =>
      rw [h2] at h
      simp only [Option.bind_eq_bind, Option.some_bind] at h
      split at h
      · match h3 : inp2.current_location with
        | none => rw [h3] at h; simp at h
        | some loc =>
          rw [h3] at h
          simp only [Option.bind_eq_bind, Option.some_bind, Option.pure_def,
            Option.some_inj] at h
          subst h
          trivial
      · exact addFinish_arrowFree (by decide) h hna

theorem bangBranch_arrowFree {lx : Lexer} {r : StepRes} (h : bangBranch lx = some r)
    (hna : ArrowFree lx.tokens) : StepArrowFree r := by
  unfold bangBranch at h
  match h1 : lx.input.read 1 with
  | none => rw [h1] at h; simp at h
  | some (eol, inp1) =>
    rw [h1] at h
    simp only [Option.bind_eq_bind, Option.some_bind] at h
    match h2 : inp1.skip_whitespace U32_MAX false with
    | none => rw [h2] at h; simp at h
    | some inp2 =>
      rw [h2] at h
      simp only [Option.bind_eq_bind, Option.some_bind] at h
      match h3 : bangLoop (inp2.remaining_length + 1) inp2 [] with
      | none => rw [h3] at h; simp at h
      | some (.error loc) =>
        rw [h3] at h
        simp only [Option.bind_eq_bind, Option.some_bind, Option.pure_def,
          Option.some_inj] at h
        subst h
        trivial
      | some (.ok (rest, inp3)) =>
        rw [h3] at h
        simp only [Option.bind_eq_bind, Option.some_bind] at h
        match h4 : Lexer.add_token { lx with input := inp3 } .Eol (eol ++ rest) with
        | none => rw [h4] at h; simp at h
        | some lx2 =>
          rw [h4] at h
          simp only [Option.bind_eq_bind, Option.some_bind, Option.pure_def,
            Option.some_inj] at h
          subst h
          exact add_token_arrowFree h4 hna (by decide)

theorem questionBranch_arrowFree {lx : Lexer} {r : StepRes} (h : questionBranch lx = some r)
    (hna : ArrowFree lx.tokens) : StepArrowFree r := by
  unfold questionBranch at h
  match h1 : lx.input.read 1 with
  | none => rw [h1] at h; simp at h
  | some (eolDebug, inp1) =>
    rw [h1] at h
    simp only [Option.bind_eq_bind, Option.some_bind] at h
    match h2 : inp1.skip_whitespace U32_MAX false with
    | none => rw [h2] at h; simp at h
    | some inp2 =>
      rw [h2] at h
      simp only [Option.bind_eq_bind, Option.some_bind] at h
      split at h
      · match h3 : inp2.read 1 with
        | none => rw [h3] at h; simp at h
        | some (cur, inp3) =>
          rw [h3] at h
          simp only [Option.bind_eq_bind, Option.some_bind] at h
          split at h
          · match h4 : (⟨inp3.input, inp3.cursor - 1⟩ : Input).current_location with
            | none => rw [h4] at h; simp at h
            | some loc =>
              rw [h4] at h
              simp only [Option.bind_eq_bind, Option.some_bind, Option.pure_def,
                Option.some_inj] at h
              subst h
              trivial
          · match h4 : Lexer.add_token { lx with input := inp3 } .EolDebug eolDebug with
            | none => rw [h4] at h; simp at h
            | some lx2 =>
              rw [h4] at h
              simp only [Option.bind_eq_bind, Option.some_bind, Option.pure_def,
                Option.some_inj] at h
              subst h
              exact add_token_arrowFree h4 hna (by decide)
      · match h4 : Lexer.add_token { lx with input := inp2 } .EolDebug eolDebug with
        | none => rw [h4] at h; simp at h
        | some lx2 =>
          rw [h4] at h
          simp only [Option.bind_eq_bind, Option.some_bind, Option.pure_def,
            Option.some_inj] at h
          subst h
          exact add_token_arrowFree h4 hna (by decide)

theorem equalsBranch_arrowFree {lx : Lexer} {r : StepRes}
    (hpeek : lx.input.peek = some '=') (h : equalsBranch lx = some r)
    (hna : ArrowFree lx.tokens) : StepArrowFree r := by
  unfold equalsBranch at h
  rw [hpeek] at h
  rw [if_neg (by decide)] at h
  exact addFinish_arrowFree (by decide) h hna

theorem lexIdentifier_arrowFree {lx lx' : Lexer} (h : lexIdentifier lx = some lx')
    (hna : ArrowFree lx.tokens) : ArrowFree lx'.tokens := by
  unfold lexIdentifier at h
  match h1 : lx.input.read 1 with
  | none => rw [h1] at h; simp at h
  | some (first, inp1) =>
    rw [h1] at h
    simp only [Option.bind_eq_bind, Option.some_bind] at h
    match h2 : identLoop (inp1.remaining_length + 1) inp1 [] with
    | none => rw [h2] at h; simp at h
    | some (rest, inp2) =>
      rw [h2] at h
      simp only [Option.bind_eq_bind, Option.some_bind] at h
      match h3 : Lexer.add_token { lx with input := inp2 }
          (classifyIdent (first ++ rest)) (first ++ rest) with
      | none => rw [h3] at h; simp at h
      | some lx2 =>
        rw [h3] at h
        simp only [Option.bind_eq_bind, Option.some_bind, Option.pure_def,
          Option.some_inj] at h
        subst h
        exact @add_token_arrowFree _ lx2 _ _ h3 hna (classifyIdent_ne_arrow _)

theorem intPart_arrowFree {c : Char} {lx lx' : Lexer} (h : intPart c lx = some lx')
    (hna : ArrowFree lx.tokens) : ArrowFree lx'.tokens := by
  unfold intPart at h
  split at h
  · match h1 : numberLoop (lx.input.remaining_length + 1) lx.input [] with
    | none => rw [h1] at h; simp at h
    | some (number, inp1) =>
      rw [h1] at h
      simp only [Option.bind_eq_bind, Option.some_bind] at h
      exact add_token_arrowFree h hna (by decide)
  · simp only [Option.pure_def, Option.some_inj] at h
    subst h
    exact hna

theorem identPart_arrowFree {c : Char} {lx lx' : Lexer} (h : identPart c lx = some lx')
    (hna : ArrowFree lx.tokens) : ArrowFree lx'.tokens := by
  unfold identPart at h
  split at h
  · exact lexIdentifier_arrowFree h hna
  · simp only [Option.pure_def, Option.some_inj] at h
    subst h
    exact hna

theorem defaultBranch_arrowFree {c : Char} {lx : Lexer} {r : StepRes}
    (h : defaultBranch c lx = some r) (hna : ArrowFree lx.tokens) : StepArrowFree r := by
  unfold defaultBranch at h
  match h1 : intPart c lx with
  | none => rw [h1] at h; simp at h
  | some lx1 =>
    rw [h1] at h
    simp only [Option.bind_eq_bind, Option.some_bind] at h
    match h2 : identPart c lx1 with
    | none => rw [h2] at h; simp at h
    | some lx2 =>
      rw [h2] at h
      simp only [Option.bind_eq_bind, Option.some_bind] at h
      exact finishIter_arrowFree h
        (identPart_arrowFree h2 (intPart_arrowFree h1 hna))

set_option maxHeartbeats 2000000 in
theorem dispatch_arrowFree {current : Char} {lx : Lexer} {r : StepRes}
    (hpeek : lx.input.peek = some current) (h : dispatch current lx = some r)
    (hna : ArrowFree lx.tokens) : StepArrowFree r := by
  unfold dispatch at h
  split_ifs at h with h1 h2 h3 h4 h5 h6 h7 h8 h9 h10 h11
  · exact finishIter_arrowFree h hna
  · exact stringBranch_arrowFree h hna
  · exact addFinish_arrowFree (by decide) h hna
  · exact bangBranch_arrowFree h hna
  · exact questionBranch_arrowFree h hna
  · exact addFinish_arrowFree (by decide) h hna
  · exact addFinish_arrowFree (by decide) h hna
  · exact addFinish_arrowFree (by decide) h hna
  · exact addFinish_arrowFree (by decide) h hna
  · exact addFinish_arrowFree (by decide) h hna
  · rw [h11] at hpeek
    exact equalsBranch_arrowFree hpeek h hna
  · exact defaultBranch_arrowFree h hna

theorem lexIter_arrowFree {lx : Lexer} {r : StepRes} (h : lexIter lx = some r)
    (hna : ArrowFree lx.tokens) : StepArrowFree r := by
  unfold lexIter at h
  match hskip : lx.input.skip_whitespace U32_MAX true with
  | none => rw [hskip] at h; simp at h
  | some inp =>
    rw [hskip] at h
    simp only [Option.bind_eq_bind, Option.some_bind] at h
    match hpk : Input.peek inp with
    | none =>
      rw [hpk] at h
      simp only [Option.pure_def, Option.some_inj] at h
      subst h
      exact hna
    | some c =>
      rw [hpk] at h
      exact @dispatch_arrowFree c { lx with input := inp } r hpk h hna

theorem lexLoop_arrowFree :
    ∀ (fuel : Nat) (lx res : Lexer), ArrowFree lx.tokens →
      lexLoop fuel lx = some (.ok res) → ArrowFree res.tokens := by
  intro fuel
  induction fuel with
  | zero =>
    intro lx res _ h
    exact absurd h (by simp [lexLoop])
  | succ fuel ih =>
    intro lx res hna h
    rw [lexLoop_succ] at h
    split at h
    · match hit : lexIter lx with
      | none => rw [hit] at h; simp at h
      | some (.fail e) => rw [hit] at h; simp at h
      | some (.stop lx') =>
        rw [hit] at h
        simp only [Option.some_inj] at h
        injection h with h2
        rw [← h2]
        exact lexIter_arrowFree hit hna
      | some (.next lx') =>
        rw [hit] at h
        exact ih lx' res (lexIter_arrowFree hit hna) h
    · simp only [Option.some_inj] at h
      injection h with h2
      rw [← h2]
      exact hna

/-- C10: no successful lex ever contains an Arrow token: the `'='` dispatch
peeks the not-yet-consumed `'='` itself when testing for `'>'`, so the
Arrow-emitting branch is unreachable on every input. -/
theorem claim10 (inp : Input) (ts : List Token) (h : lex inp = some (.ok ts)) :
    ∀ tok ∈ ts, tok.ty ≠ TokenType.Arrow := by
  match hL : lexLoop (byteLen inp.input + 1) { input := inp, tokens := [] } with
  | none => rw [lex_eq_of_loop_none hL] at h; simp at h
  | some (.error e) => rw [lex_eq_of_loop_err hL] at h; simp at h
  | some (.ok lx) =>
    have hAF : ArrowFree lx.tokens :=
      lexLoop_arrowFree _ _ lx (by intro t ht; simp at ht) hL
    rw [lex_eq_of_loop_ok hL] at h
    unfold finalCheck at h
    split at h
    · split at h
      · match hcl : lx.input.current_location with
        | none => rw [hcl] at h; simp at h
        | some loc => rw [hcl] at h; simp at h
      · simp only [Option.pure_def, Option.some_inj] at h
        injection h with h2
        rw [← h2]
        exact hAF
    · simp only [Option.pure_def, Option.some_inj] at h
      injection h with h2
      rw [← h2]
      exact hAF

/-- C10 witness: lexing `"=>!"` succeeds and neither of its two tokens is an
Arrow token. -/
theorem claim10_witness :
    (⟨TokenType.Equals, ['='], ⟨1, 1⟩⟩ : Token).ty ≠ TokenType.Arrow ∧
    (⟨TokenType.Eol, ['!'], ⟨1, 4⟩⟩ : Token).ty ≠ TokenType.Arrow := by
  have h := claim10 (Input.of ['=', '>', '!'])
    [⟨TokenType.Equals, ['='], ⟨1, 1⟩⟩, ⟨TokenType.Eol, ['!'], ⟨1, 4⟩⟩] rfl
  exact ⟨h _ (by simp), h _ (by simp)⟩

end Berd
